import Mathlib

set_option linter.unusedVariables false

/-!
Verification of the DevDiary commit-classification engine.

This file gives a shallow embedding, in Lean 4, of the parts of the
DevDiary repository that the specification's claims are about:

* `journal/cache.py` — the JSON-file cache store (`load_cache`,
  `save_cache`, `get_cached`, `put_cached`, `purge_bad_entries`);
* `journal/summarize.py` — the per-commit classifier
  (`classify_and_summarize_commit`) with its lenient JSON parsing
  helpers, heuristics, and the repository / team aggregators;
* `journal/multi_repo_git_utils.py` — commit extraction
  (`get_commits_from_repo`, `get_commit_diff_stats`, `should_exclude`);
* `core/scanner.py` — `get_commit_stats` and the scanner's heuristic
  classifier.

Modelling conventions:

* Python `dict`s loaded from JSON are modelled by the mutual inductive
  `Json` / `JsonList` / `JsonFields`; field insertion keeps the
  position of an existing key and appends new keys, exactly like a
  Python `dict`.
* JSON text is modelled at the level of strings of characters: a real
  executable parser models `json.loads` (strict mode: code-point
  strings, no trailing commas, `NaN`/`Infinity`/`-Infinity` constants,
  full-input consumption), and a serializer models
  `json.dumps(..., ensure_ascii=False, indent=2)`.  JSON numbers are
  carried as their source lexemes; a parsed float object's Python
  re-formatting is not re-modelled (no claim depends on it).
* The persisted cache file is an `Option String` (`none` = the file
  does not exist).
* The language model is an oracle `Nat → LLMOutcome` giving, for the
  n-th chat call of one classifier invocation, either the response
  content or the text of a raised exception.  Network calls and client
  construction are folded into the oracle; the prompt strings do not
  influence any observable modelled behaviour and are not rebuilt.
* Python functions that can raise an uncaught exception are modelled
  with an `Option` result (`none` = an exception propagates).
* Character classes (`str.strip` whitespace, `\b` word characters,
  `str.lower`) are modelled on their ASCII behaviour; the claims only
  exercise ASCII data.
-/

/-! ## Character classes and basic list-of-char utilities -/

/-- Whitespace for Python `str.strip()` / `str.split()` (ASCII part). -/
def isPySpace (c : Char) : Bool :=
  c = ' ' || c = '\t' || c = '\n' || c = '\x0d' || c = '\x0b' || c = '\x0c'

/-- Whitespace in the JSON grammar (what `json.loads` skips). -/
def isJsonWs (c : Char) : Bool :=
  c = ' ' || c = '\t' || c = '\n' || c = '\x0d'

/-- Whitespace for the Python regex class `\s` (ASCII part). -/
def isReSpace (c : Char) : Bool := isPySpace c

/-- Line-break characters recognised by Python `str.splitlines`. -/
def isLineBreak (c : Char) : Bool :=
  c = '\n' || c = '\x0d' || c = '\x0b' || c = '\x0c' ||
  c = '\x1c' || c = '\x1d' || c = '\x1e' || c = '\x85' || c = ' ' || c = ' '

def isDigitC (c : Char) : Bool := c ≤ '9' && '0' ≤ c

/-- Lowercase hexadecimal digit, the class `[0-9a-f]`. -/
def isLowerHex (c : Char) : Bool :=
  isDigitC c || ('a' ≤ c && c ≤ 'f')

/-- Word character for the regex `\b` boundary (ASCII approximation). -/
def isWordChar (c : Char) : Bool :=
  isDigitC c || (c ≤ 'z' && 'a' ≤ c) || (c ≤ 'Z' && 'A' ≤ c) || c = '_'

/-- ASCII `str.lower`. -/
def lowerChar (c : Char) : Char :=
  if 'A' ≤ c && c ≤ 'Z' then Char.ofNat (c.toNat + 32) else c

def lowerL (cs : List Char) : List Char := cs.map lowerChar

def pyLower (s : String) : String := String.mk (lowerL s.data)

/-- `s.strip()` on a character list. -/
def stripL (cs : List Char) : List Char :=
  ((cs.dropWhile isPySpace).reverse.dropWhile isPySpace).reverse

def pyStrip (s : String) : String := String.mk (stripL s.data)

/-- Is `pre` a prefix of `l`? -/
def startsWithL : List Char → List Char → Bool
  | [], _ => true
  | p :: ps, c :: cs => p = c && startsWithL ps cs
  | _ :: _, [] => false

/-- Does `l` contain `needle` as a contiguous sublist?  (Python `in`.) -/
def containsL (needle : List Char) : List Char → Bool
  | [] => startsWithL needle []
  | c :: cs => startsWithL needle (c :: cs) || containsL needle cs

/-- Python substring test `needle in hay`. -/
def containsSub (hay needle : String) : Bool := containsL needle.data hay.data

/-- Split `l` at every occurrence of the non-empty separator `sep`
(leftmost-first, non-overlapping), like Python `str.split(sep)`. -/
def splitOnL (sep : List Char) : List Char → List (List Char)
  | [] => [[]]
  | c :: cs =>
    if startsWithL sep (c :: cs) && sep ≠ [] then
      [] :: splitOnL sep (cs.drop (sep.length - 1))
    else
      match splitOnL sep cs with
      | [] => [[c]]
      | p :: ps => (c :: p) :: ps
termination_by cs => cs.length
decreasing_by
  all_goals simp +arith [List.length_drop]

def pySplitOn (s sep : String) : List String :=
  (splitOnL sep.data s.data).map String.mk

/-- Python `sep.join(parts)`. -/
def strJoin (sep : String) : List String → String
  | [] => ""
  | [x] => x
  | x :: y :: tl => x ++ sep ++ strJoin sep (y :: tl)

/-- Python `str.split()` with no separator: split on whitespace runs,
dropping empty fields. -/
def pySplitWsL : List Char → List (List Char)
  | [] => []
  | c :: cs =>
    if isPySpace c then pySplitWsL cs
    else
      ((c :: cs).takeWhile (fun d => !isPySpace d)) ::
        pySplitWsL (cs.dropWhile (fun d => !isPySpace d))
termination_by cs => cs.length
decreasing_by
  · simp +arith
  · have h : (cs.dropWhile (fun d => !isPySpace d)).length ≤ cs.length := by
      induction cs with
      | nil => simp [List.dropWhile]
      | cons c2 cs2 ih =>
        simp only [List.dropWhile]
        cases (!isPySpace c2)
        · simp
        · simp
          omega
    simp at h ⊢
    omega

def pySplitWs (s : String) : List String := (pySplitWsL s.data).map String.mk

/-- Python `s.split(maxsplit=1)`: leading whitespace skipped, first
whitespace-separated token, then the remainder with its leading
whitespace removed (dropped when it is all whitespace). -/
def pySplitMax1 (s : String) : List String :=
  let cs := s.data.dropWhile isPySpace
  match cs with
  | [] => []
  | c :: tl =>
    let tok := (c :: tl).takeWhile (fun d => !isPySpace d)
    let rest := ((c :: tl).dropWhile (fun d => !isPySpace d)).dropWhile isPySpace
    if rest = [] then [String.mk tok] else [String.mk tok, String.mk rest]

/-- Strict lexicographic order on code points, Python string `<`. -/
def ltCharsL : List Char → List Char → Bool
  | [], [] => false
  | [], _ :: _ => true
  | _ :: _, [] => false
  | a :: as_, b :: bs =>
    if a.val < b.val then true
    else if b.val < a.val then false
    else ltCharsL as_ bs

def pyStrLt (a b : String) : Bool := ltCharsL a.data b.data

/-- Insertion sort by `pyStrLt`; on distinct strings this agrees with
Python `sorted`. -/
def insertSortedStr (x : String) : List String → List String
  | [] => [x]
  | y :: tl => if pyStrLt x y then x :: y :: tl else y :: insertSortedStr x tl

def sortStrings : List String → List String
  | [] => []
  | x :: tl => insertSortedStr x (sortStrings tl)

/-- Deduplicate keeping first occurrences (the members of a Python
`set`, in some order; only used under `sorted`). -/
def dedupStr : List String → List String
  | [] => []
  | x :: tl => x :: dedupStr (tl.filter (fun y => y ≠ x))
termination_by l => l.length
decreasing_by
  simp only [List.length_cons]
  exact Nat.lt_succ_of_le (List.length_filter_le _ _)

/-- Python `str.rstrip(".")`: drop trailing `.` characters. -/
def rstripDotL (cs : List Char) : List Char :=
  (cs.reverse.dropWhile (fun c => c = '.')).reverse

def pyRstripDot (s : String) : String := String.mk (rstripDotL s.data)

/-- Python slicing `s[:n]` by code points. -/
def pyTake (n : Nat) (s : String) : String := String.mk (s.data.take n)

/-! ## The JSON data model (Python objects produced by `json.loads`) -/

mutual
/-- A Python value as produced by `json.loads`: `None`, `bool`, a
number (carried as its source lexeme, including the constants `NaN`,
`Infinity`, `-Infinity`), `str`, `list`, `dict`. -/
inductive Json where
  | null : Json
  | bool (b : Bool) : Json
  | num (raw : String) : Json
  | str (s : String) : Json
  | arr (xs : JsonList) : Json
  | obj (fields : JsonFields) : Json
deriving DecidableEq, Repr

inductive JsonList where
  | nil : JsonList
  | cons (v : Json) (tl : JsonList) : JsonList
deriving DecidableEq, Repr

/-- A Python `dict` with string keys, in insertion order. -/
inductive JsonFields where
  | nil : JsonFields
  | cons (k : String) (v : Json) (tl : JsonFields) : JsonFields
deriving DecidableEq, Repr
end

/-- `key in d` for a Python dict. -/
def JsonFields.hasKey : JsonFields → String → Bool
  | .nil, _ => false
  | .cons k _ tl, key => k = key || tl.hasKey key

/-- `d.get(key)` / `d[key]` for a Python dict. -/
def JsonFields.get : JsonFields → String → Option Json
  | .nil, _ => none
  | .cons k v tl, key => if k = key then some v else tl.get key

/-- `d[key] = v` for a Python dict: update in place if the key exists,
else append. -/
def JsonFields.insert : JsonFields → String → Json → JsonFields
  | .nil, key, v => .cons key v .nil
  | .cons k w tl, key, v =>
    if k = key then .cons k v tl else .cons k w (tl.insert key v)

/-- `d.pop(key, None)`: remove the entry with this key, if any. -/
def JsonFields.pop : JsonFields → String → JsonFields
  | .nil, _ => .nil
  | .cons k v tl, key => if k = key then tl else .cons k v (tl.pop key)

def JsonFields.keys : JsonFields → List String
  | .nil => []
  | .cons k _ tl => k :: tl.keys

/-- The keys are pairwise distinct (always true of a real Python dict). -/
def JsonFields.nodupKeys : JsonFields → Bool
  | .nil => true
  | .cons k _ tl => !(tl.hasKey k) && tl.nodupKeys

def JsonList.hasMember : JsonList → Json → Bool
  | .nil, _ => false
  | .cons v tl, x => v = x || tl.hasMember x

/-- Does this number lexeme denote a truthy Python number?  A JSON
numeral denotes zero exactly when all of its digits are `0`; the
constants `NaN`, `Infinity`, `-Infinity` are truthy. -/
def numTruthy (raw : String) : Bool :=
  raw.data.any (fun c => isDigitC c && c ≠ '0') ||
  raw = "NaN" || raw = "Infinity" || raw = "-Infinity"

/-- Python truthiness of a loaded JSON value. -/
def pyTruthy : Json → Bool
  | .null => false
  | .bool b => b
  | .num raw => numTruthy raw
  | .str s => s ≠ ""
  | .arr .nil => false
  | .arr (.cons _ _) => true
  | .obj .nil => false
  | .obj (.cons _ _ _) => true

mutual
/-- Python `str()` of a loaded JSON value, as interpolated by an
f-string.  Scalars are rendered exactly; for containers the claims
never exercise the rendering, and a simple `repr`-like rendering is
used (numbers appear as their lexemes). -/
def pyStr : Json → String
  | .null => "None"
  | .bool true => "True"
  | .bool false => "False"
  | .num raw => raw
  | .str s => s
  | .arr xs => "[" ++ strJoin ", " (pyStrList xs) ++ "]"
  | .obj fs => "\x7b" ++ strJoin ", " (pyStrFields fs) ++ "\x7d"

def pyStrList : JsonList → List String
  | .nil => []
  | .cons v tl => pyStrQ v :: pyStrList tl

def pyStrFields : JsonFields → List String
  | .nil => []
  | .cons k v tl => ("'" ++ k ++ "': " ++ pyStrQ v) :: pyStrFields tl

/-- `repr`-style rendering used inside containers (strings quoted). -/
def pyStrQ : Json → String
  | .str s => "'" ++ s ++ "'"
  | v => pyStr v
end

/-! ## `json.dumps(..., ensure_ascii=False, indent=2)` -/

/-- Lowercase hexadecimal digit character for `n < 16`. -/
def hexDigit (n : Nat) : Char :=
  if n < 10 then Char.ofNat (48 + n) else Char.ofNat (87 + n)

/-- Escaping of one character inside a JSON string literal, as done by
`json.dumps` with `ensure_ascii=False`: only `"`, `\` and control
characters below `0x20` are escaped. -/
def escapeChar (c : Char) : List Char :=
  if c = '"' then ['\\', '"']
  else if c = '\\' then ['\\', '\\']
  else if c = '\x08' then ['\\', 'b']
  else if c = '\x0c' then ['\\', 'f']
  else if c = '\n' then ['\\', 'n']
  else if c = '\x0d' then ['\\', 'r']
  else if c = '\t' then ['\\', 't']
  else if c.toNat < 32 then
    ['\\', 'u', '0', '0', hexDigit (c.toNat / 16), hexDigit (c.toNat % 16)]
  else [c]

def escapeString (s : String) : List Char :=
  (s.data.map escapeChar).flatten

/-- The newline-plus-indentation emitted between items at nesting
depth `ind` when `indent=2`. -/
def nlIndent (ind : Nat) : List Char :=
  '\n' :: List.replicate (2 * ind) ' '

mutual
/-- Serialisation of a value, `json.dumps(v, ensure_ascii=False,
indent=2)`, at nesting depth `ind`. -/
def emitJson (ind : Nat) : Json → List Char
  | .null => "null".data
  | .bool true => "true".data
  | .bool false => "false".data
  | .num raw => raw.data
  | .str s => '"' :: (escapeString s ++ ['"'])
  | .arr .nil => ['[', ']']
  | .arr (.cons x tl) =>
    '[' :: (nlIndent (ind + 1) ++ emitJson (ind + 1) x ++ emitArrTail (ind + 1) tl ++
      nlIndent ind ++ [']'])
  | .obj .nil => ['\x7b', '\x7d']
  | .obj (.cons k v tl) =>
    '\x7b' :: (nlIndent (ind + 1) ++
      ('"' :: (escapeString k ++ ['"', ':', ' '] ++ emitJson (ind + 1) v)) ++
      emitObjTail (ind + 1) tl ++ nlIndent ind ++ ['\x7d'])

def emitArrTail (ind : Nat) : JsonList → List Char
  | .nil => []
  | .cons x tl => ',' :: (nlIndent ind ++ emitJson ind x ++ emitArrTail ind tl)

def emitObjTail (ind : Nat) : JsonFields → List Char
  | .nil => []
  | .cons k v tl =>
    ',' :: (nlIndent ind ++
      ('"' :: (escapeString k ++ ['"', ':', ' '] ++ emitJson ind v)) ++
      emitObjTail ind tl)
end

/-- One `"key": value` member. -/
def emitMember (ind : Nat) (k : String) (v : Json) : List Char :=
  '"' :: (escapeString k ++ ['"', ':', ' '] ++ emitJson ind v)

def jsonDumps (v : Json) : String := String.mk (emitJson 0 v)

/-! ## `json.loads` — a strict executable JSON parser

The scanner mirrors CPython's pure-Python scanner: strings are
double-quoted with the standard escapes (`\uXXXX` including surrogate
pairs), unescaped control characters are rejected, numbers follow
`(-?(?:0|[1-9]\d*))(\.\d+)?([eE][-+]?\d+)?`, the constants `NaN`,
`Infinity` and `-Infinity` are accepted, objects and arrays reject
trailing commas, and the whole input (minus surrounding whitespace)
must be consumed.  A code point outside Lean's `Char` range (a lone
surrogate) is replaced by `Char.ofNat`'s default; no claim exercises
this corner. -/

def skipWs (cs : List Char) : List Char := cs.dropWhile isJsonWs

def hexVal (c : Char) : Option Nat :=
  if c ≤ '9' && '0' ≤ c then some (c.toNat - 48)
  else if c ≤ 'f' && 'a' ≤ c then some (c.toNat - 87)
  else if c ≤ 'F' && 'A' ≤ c then some (c.toNat - 55)
  else none

def hex4 (a b c d : Char) : Option Nat :=
  match hexVal a, hexVal b, hexVal c, hexVal d with
  | some va, some vb, some vc, some vd =>
    some (va * 4096 + vb * 256 + vc * 16 + vd)
  | _, _, _, _ => none

/-- Body of a JSON string literal, after the opening quote; returns
the decoded characters and the input after the closing quote. -/
def parseStrBody (fuel : Nat) (cs : List Char) : Option (List Char × List Char) :=
  match fuel, cs with
  | 0, _ => none
  | _ + 1, [] => none
  | fuel + 1, c :: rest =>
    if c = '"' then some ([], rest)
    else if c = '\\' then
      match rest with
      | [] => none
      | e :: rest2 =>
        if e = 'u' then
          match rest2 with
          | h1 :: h2 :: h3 :: h4 :: rest3 =>
            match hex4 h1 h2 h3 h4 with
            | none => none
            | some cp =>
              if 0xd800 ≤ cp && cp ≤ 0xdbff then
                match rest3 with
                | '\\' :: 'u' :: g1 :: g2 :: g3 :: g4 :: rest4 =>
                  match hex4 g1 g2 g3 g4 with
                  | none => none
                  | some cp2 =>
                    if 0xdc00 ≤ cp2 && cp2 ≤ 0xdfff then
                      (parseStrBody fuel rest4).map
                        (fun p =>
                          (Char.ofNat
                            (0x10000 + (cp - 0xd800) * 1024 + (cp2 - 0xdc00)) :: p.1,
                           p.2))
                    else
                      (parseStrBody fuel rest3).map
                        (fun p => (Char.ofNat cp :: p.1, p.2))
                | _ =>
                  (parseStrBody fuel rest3).map (fun p => (Char.ofNat cp :: p.1, p.2))
              else
                (parseStrBody fuel rest3).map (fun p => (Char.ofNat cp :: p.1, p.2))
          | _ => none
        else if e = '"' then (parseStrBody fuel rest2).map (fun p => ('"' :: p.1, p.2))
        else if e = '\\' then (parseStrBody fuel rest2).map (fun p => ('\\' :: p.1, p.2))
        else if e = '/' then (parseStrBody fuel rest2).map (fun p => ('/' :: p.1, p.2))
        else if e = 'b' then (parseStrBody fuel rest2).map (fun p => ('\x08' :: p.1, p.2))
        else if e = 'f' then (parseStrBody fuel rest2).map (fun p => ('\x0c' :: p.1, p.2))
        else if e = 'n' then (parseStrBody fuel rest2).map (fun p => ('\n' :: p.1, p.2))
        else if e = 'r' then (parseStrBody fuel rest2).map (fun p => ('\x0d' :: p.1, p.2))
        else if e = 't' then (parseStrBody fuel rest2).map (fun p => ('\t' :: p.1, p.2))
        else none
    else if c.toNat < 32 then none
    else (parseStrBody fuel rest).map (fun p => (c :: p.1, p.2))

/-- Is the head of the list this character? -/
def headIs (l : List Char) (c : Char) : Bool :=
  match l with
  | d :: _ => d = c
  | [] => false

/-- JSON integer part: `0` or `[1-9][0-9]*`. -/
def lexInt : List Char → Option (List Char × List Char)
  | [] => none
  | c :: rest =>
    if c = '0' then some (['0'], rest)
    else if isDigitC c then
      some (c :: rest.takeWhile isDigitC, rest.dropWhile isDigitC)
    else none

/-- JSON fraction part `(\.\d+)?`; returns `([], cs)` when absent. -/
def lexFrac (cs : List Char) : List Char × List Char :=
  match cs with
  | [] => ([], [])
  | c :: rest =>
    if c = '.' then
      let ds := rest.takeWhile isDigitC
      if ds = [] then ([], c :: rest) else ('.' :: ds, rest.dropWhile isDigitC)
    else ([], c :: rest)

/-- JSON exponent part `([eE][-+]?\d+)?`; returns `([], cs)` when absent. -/
def lexExp (cs : List Char) : List Char × List Char :=
  match cs with
  | [] => ([], [])
  | e :: rest =>
    if e = 'e' || e = 'E' then
      match rest with
      | [] => ([], e :: rest)
      | s :: rest2 =>
        if s = '+' || s = '-' then
          let ds := rest2.takeWhile isDigitC
          if ds = [] then ([], e :: rest) else (e :: s :: ds, rest2.dropWhile isDigitC)
        else
          let ds := rest.takeWhile isDigitC
          if ds = [] then ([], e :: rest) else (e :: ds, rest.dropWhile isDigitC)
    else ([], e :: rest)

/-- The number token at the head of the input, per CPython's
`NUMBER_RE`. -/
def lexNum (cs : List Char) : Option (List Char × List Char) :=
  let sgn : List Char × List Char :=
    if headIs cs '-' then (['-'], cs.tail) else ([], cs)
  match lexInt sgn.2 with
  | none => none
  | some (ip, cs2) =>
    let fr := lexFrac cs2
    let ex := lexExp fr.2
    some (sgn.1 ++ ip ++ fr.1 ++ ex.1, ex.2)

def toJsonList : List Json → JsonList
  | [] => .nil
  | v :: tl => .cons v (toJsonList tl)

mutual
/-- One JSON value at the head of the input (leading whitespace
allowed), returning the value and the rest of the input. -/
def parseValue (fuel : Nat) (cs : List Char) : Option (Json × List Char) :=
  match fuel with
  | 0 => none
  | fuel + 1 =>
    match skipWs cs with
    | [] => none
    | c :: rest =>
      if c = '\x7b' then
        let r := skipWs rest
        if headIs r '\x7d' then some (.obj .nil, r.tail)
        else parseMembers fuel r .nil
      else if c = '[' then
        let r := skipWs rest
        if headIs r ']' then some (.arr .nil, r.tail)
        else parseElems fuel r []
      else if c = '"' then
        (parseStrBody (rest.length + 1) rest).map
          (fun p => (.str (String.mk p.1), p.2))
      else if startsWithL "true".data (c :: rest) then some (.bool true, rest.drop 3)
      else if startsWithL "false".data (c :: rest) then some (.bool false, rest.drop 4)
      else if startsWithL "null".data (c :: rest) then some (.null, rest.drop 3)
      else if startsWithL "NaN".data (c :: rest) then some (.num "NaN", rest.drop 2)
      else if startsWithL "Infinity".data (c :: rest) then
        some (.num "Infinity", rest.drop 7)
      else if startsWithL "-Infinity".data (c :: rest) then
        some (.num "-Infinity", rest.drop 8)
      else (lexNum (c :: rest)).map (fun p => (.num (String.mk p.1), p.2))

/-- Members of an object, positioned at the first character of a key
(after `{` or `,`, whitespace skipped); `acc` is the dict built so
far. -/
def parseMembers (fuel : Nat) (cs : List Char) (acc : JsonFields) :
    Option (Json × List Char) :=
  match fuel with
  | 0 => none
  | fuel + 1 =>
    match cs with
    | '"' :: rest =>
      match parseStrBody (rest.length + 1) rest with
      | none => none
      | some (key, rest2) =>
        let r2 := skipWs rest2
        if headIs r2 ':' then
          match parseValue fuel r2.tail with
          | none => none
          | some (v, rest4) =>
            let acc2 := acc.insert (String.mk key) v
            let r4 := skipWs rest4
            if headIs r4 ',' then parseMembers fuel (skipWs r4.tail) acc2
            else if headIs r4 '\x7d' then some (.obj acc2, r4.tail)
            else none
        else none
    | _ => none

/-- Elements of an array, positioned at the first character of a
value (after `[` or `,`); `acc` is the list built so far. -/
def parseElems (fuel : Nat) (cs : List Char) (acc : List Json) :
    Option (Json × List Char) :=
  match fuel with
  | 0 => none
  | fuel + 1 =>
    match parseValue fuel cs with
    | none => none
    | some (v, rest) =>
      let r := skipWs rest
      if headIs r ',' then parseElems fuel r.tail (acc ++ [v])
      else if headIs r ']' then some (.arr (toJsonList (acc ++ [v])), r.tail)
      else none
end

/-- `json.loads`: parse one value and require that only whitespace
remains. -/
def parseJson (s : String) : Option Json :=
  match parseValue (s.data.length + 1) s.data with
  | none => none
  | some (v, rest) => if skipWs rest = [] then some v else none

/-! ## `journal/cache.py` -/

/-- `load_cache(path)`: return the parsed backing file; a missing file
or one whose text is not valid JSON yields an empty mapping.  The
file is modelled as `Option String` (`none` = does not exist). -/
def load_cache (file : Option String) : Json :=
  match file with
  | none => .obj .nil
  | some s =>
    match parseJson s with
    | some v => v
    | none => .obj .nil

/-- `save_cache(cache, path)`: the text written to the backing file,
`json.dumps(cache, ensure_ascii=False, indent=2)`. -/
def save_cache (cache : JsonFields) : String := jsonDumps (.obj cache)

/-- `get_cached(hash_, cache)`. -/
def get_cached (hash_ : String) (cache : JsonFields) : Option Json :=
  cache.get hash_

/-- `put_cached(hash_, value, cache)`. -/
def put_cached (hash_ : String) (value : Json) (cache : JsonFields) : JsonFields :=
  cache.insert hash_ value

/-- The membership test
`isinstance(v, dict) and "bullet" in v and "summary unavailable" in v["bullet"]`,
for one cache entry.  `none` models the `TypeError` Python raises when
`v["bullet"]` is a number, boolean or `None` (the `in` operator);
Python `in` on a list is element equality and on a dict is key
membership. -/
def entryIsBad : Json → Option Bool
  | .obj fs =>
    match fs.get "bullet" with
    | none => some false
    | some (.str b) => some (containsSub b "summary unavailable")
    | some (.arr xs) => some (xs.hasMember (.str "summary unavailable"))
    | some (.obj g) => some (g.hasKey "summary unavailable")
    | some _ => none
  | _ => some false

/-- The keys scheduled for deletion by `purge_bad_entries`, in
iteration order; `none` if the scan raises. -/
def collectBadKeys : JsonFields → Option (List String)
  | .nil => some []
  | .cons k v tl =>
    match entryIsBad v with
    | none => none
    | some b =>
      match collectBadKeys tl with
      | none => none
      | some ks => some (if b then k :: ks else ks)

/-- `purge_bad_entries(cache)`: collect the keys of entries whose
bullet text contains `"summary unavailable"`, then pop each of them;
`none` models an uncaught `TypeError` from a malformed entry. -/
def purge_bad_entries (cache : JsonFields) : Option JsonFields :=
  match collectBadKeys cache with
  | none => none
  | some ks => some (ks.foldl (fun c k => c.pop k) cache)

/-! ## `journal/summarize.py` — robust JSON parsing helpers -/

/-- `_normalize_quotes`: replace curly double and single quotes with
straight ones. -/
def _normalize_quotes (s : String) : String :=
  String.mk (s.data.map (fun c =>
    if c = '“' || c = '”' then '"'
    else if c = '‘' || c = '’' then '\x27'
    else c))

/-- `re.sub(r"^```(?:json)?\s*", "", t)` with `IGNORECASE`, for a
string with no surrounding whitespace: strip one leading code fence. -/
def stripFenceHead (cs : List Char) : List Char :=
  match cs with
  | '`' :: '`' :: '`' :: rest =>
    let rest2 := if startsWithL ['j', 's', 'o', 'n'] (lowerL (rest.take 4))
                 then rest.drop 4 else rest
    rest2.dropWhile isReSpace
  | _ => cs

/-- `re.sub(r"\s*```$", "", t)` for a string with no trailing
whitespace: strip one trailing code fence and the whitespace before
it. -/
def stripFenceTail (cs : List Char) : List Char :=
  match cs.reverse with
  | '`' :: '`' :: '`' :: rev =>
    (rev.dropWhile isReSpace).reverse
  | _ => cs

/-- `_strip_code_fences(text)`. -/
def _strip_code_fences (text : String) : String :=
  let a := stripL text.data
  let b := stripFenceHead a
  let c := stripL b
  let d := stripFenceTail c
  String.mk (stripL d)

/-- The match of `re.compile(r"\{.*\}", re.DOTALL).search(text)`: the
span from the first `{` (that has a `}` after it) to the last `}`. -/
def braceSpan (cs : List Char) : Option (List Char) :=
  match cs.findIdx? (fun c => c = '\x7b') with
  | none => none
  | some i =>
    match (cs.drop (i + 1)).reverse.findIdx? (fun c => c = '\x7d') with
    | none => none
    | some jrev =>
      some (cs.drop i |>.take ((cs.length - (i + 1) - jrev) + 1))

/-- `_extract_json_block(text)`. -/
def _extract_json_block (text : String) : Option String :=
  let t := _strip_code_fences (_normalize_quotes text)
  (braceSpan t.data).map String.mk

/-- One pass of `re.sub(r",\s*([}\]])", r"\1", s)`. -/
def removeTrailingCommasL (fuel : Nat) (cs : List Char) : List Char :=
  match fuel, cs with
  | 0, cs => cs
  | _, [] => []
  | fuel + 1, ',' :: rest =>
    match rest.dropWhile isReSpace with
    | ']' :: r3 => ']' :: removeTrailingCommasL fuel r3
    | '\x7d' :: r3 => '\x7d' :: removeTrailingCommasL fuel r3
    | _ => ',' :: removeTrailingCommasL fuel rest
  | fuel + 1, c :: rest => c :: removeTrailingCommasL fuel rest

def removeTrailingCommas (s : String) : String :=
  String.mk (removeTrailingCommasL s.data.length s.data)

/-- `_try_parse_json(text)`: direct parse, then parse of the first
balanced `{...}` span after fence stripping and quote normalisation,
then the same span with trailing commas removed. -/
def _try_parse_json (text : String) : Option Json :=
  match parseJson text with
  | some v => some v
  | none =>
    match _extract_json_block text with
    | none => none
    | some block =>
      match parseJson block with
      | some v => some v
      | none => parseJson (removeTrailingCommas block)

/-! ## `journal/summarize.py` — commit parsing and heuristics -/

/-- First line of `block.strip()` (`""` when the strip is empty). -/
def firstLineStripped (block : String) : List Char :=
  (stripL block.data).takeWhile (fun c => !isLineBreak c)

/-- `_extract_commit_hash(block)`: the regex
`^([0-9a-f]{6,40})\b` applied to the first line.  The match exists
exactly when the maximal run of lowercase-hex characters at the start
of the line has length 6–40 and is followed by a non-word character
or the end of the line. -/
def _extract_commit_hash (block : String) : Option String :=
  let first := firstLineStripped block
  let run := first.takeWhile isLowerHex
  let rest := first.dropWhile isLowerHex
  if 6 ≤ run.length && run.length ≤ 40 &&
     (match rest with
      | [] => true
      | c :: _ => !isWordChar c) then
    some (String.mk run)
  else
    none

/-- `_extract_commit_message(block)`: the part of the first line after
the first whitespace run. -/
def _extract_commit_message (block : String) : String :=
  match pySplitMax1 (String.mk (firstLineStripped block)) with
  | _ :: m :: _ => m
  | _ => ""

/-- `_heuristic_work_type(msg)` from `journal/summarize.py`: ordered
keyword matching on the lower-cased message, first category wins. -/
def _heuristic_work_type (msg : String) : String :=
  let m := pyLower msg
  if containsSub m "fix" || containsSub m "bug" || containsSub m "hotfix" ||
     containsSub m "patch" then "bugfix"
  else if containsSub m "feat" || containsSub m "feature" || containsSub m "add" ||
     containsSub m "implement" then "feature"
  else if containsSub m "refactor" || containsSub m "cleanup" ||
     containsSub m "restructure" then "refactor"
  else if containsSub m "doc" || containsSub m "readme" ||
     containsSub m "changelog" then "docs"
  else if containsSub m "test" || containsSub m "spec" || containsSub m "unit test" ||
     containsSub m "unittest" then "test"
  else if containsSub m "perf" || containsSub m "optimiz" then "perf"
  else if containsSub m "build" || containsSub m "packag" then "build"
  else if containsSub m "ci" || containsSub m "pipeline" ||
     containsSub m "workflow" then "ci"
  else if containsSub m "chore" || containsSub m "deps" || containsSub m "dependency" ||
     containsSub m "bump" then "chore"
  else "other"

/-- `_time_window_phrase(mode, since_date, to_date)`. -/
def _time_window_phrase (mode since_date : String) (to_date : Option String) : String :=
  let m := pyLower mode
  if m = "today" then "Today"
  else if m = "weekly" then "In the last 7 days"
  else if m = "monthly" then "In the last month"
  else if (startsWithL "custom".data m.data || m = "custom") &&
          since_date ≠ "" then
    match to_date with
    | some td => if td ≠ "" then "From " ++ since_date ++ " to " ++ td
                 else "Since " ++ since_date
    | none => "Since " ++ since_date
  else if since_date ≠ "" then "Since " ++ since_date
  else "Recently"

/-! ## `journal/summarize.py` — the per-commit classifier -/

/-- The outcome of one chat call to the model service: the response
content, or the text of a raised exception (connection errors during
client construction are folded into the first call's outcome). -/
inductive LLMOutcome where
  | ok (content : String)
  | exc (message : String)
deriving DecidableEq, Repr

/-- Result of `classify_and_summarize_commit`: the returned dict, the
text of the cache file after the call, and how many chat calls were
attempted. -/
structure ClassifyResult where
  data : Json
  file : Option String
  calls : Nat
deriving DecidableEq, Repr

/-- Python `x or y` for strings. -/
def strOr (x y : String) : String := if x = "" then y else x

/-- `(commit_msg or "updates")[:60].rstrip(".")`. -/
def snippetOfMsg (commit_msg : String) : String :=
  pyRstripDot (pyTake 60 (strOr commit_msg "updates"))

/-- The deterministic heuristic dict built when both model attempts
fail to yield a (truthy) parseable object. -/
def heuristicFallbackData (commit_hash commit_msg : String) : JsonFields :=
  let wt := _heuristic_work_type commit_msg
  .cons "commit_hash" (.str commit_hash)
    (.cons "work_type" (.str wt)
      (.cons "bullet"
        (.str ("- [" ++ wt ++ "] `" ++ commit_hash ++ "`: " ++
          strOr commit_msg "Updated files"))
        (.cons "team_snippet" (.str (snippetOfMsg commit_msg)) .nil)))

/-- The fallback dict cached when the model call raises: its bullet
embeds the marker `(summary unavailable)` followed by `str(e)`. -/
def exceptionFallbackData (commit_hash commit_msg e : String) : JsonFields :=
  let wt := _heuristic_work_type commit_msg
  .cons "commit_hash" (.str commit_hash)
    (.cons "work_type" (.str wt)
      (.cons "bullet"
        (.str ("- `[" ++ wt ++ "] " ++ commit_hash ++ "`: (summary unavailable) " ++ e))
        (.cons "team_snippet" (.str "updates") .nil)))

/-- The "sanitize & defaults" block: backfill `commit_hash`,
`work_type`, `bullet` and `team_snippet` when the key is missing or
its value is falsy. -/
def sanitizeData (commit_hash commit_msg : String) (d : JsonFields) : JsonFields :=
  let d1 := if !(d.hasKey "commit_hash" && pyTruthy ((d.get "commit_hash").getD .null))
            then d.insert "commit_hash" (.str commit_hash) else d
  let d2 := if !(d1.hasKey "work_type" && pyTruthy ((d1.get "work_type").getD .null))
            then d1.insert "work_type" (.str (_heuristic_work_type commit_msg)) else d1
  let d3 := if !(d2.hasKey "bullet" && pyTruthy ((d2.get "bullet").getD .null))
            then d2.insert "bullet"
              (.str ("- [" ++ pyStr ((d2.get "work_type").getD .null) ++ "] `" ++
                commit_hash ++ "`: " ++ strOr commit_msg "Updated files"))
            else d2
  if !(d3.hasKey "team_snippet" && pyTruthy ((d3.get "team_snippet").getD .null))
  then d3.insert "team_snippet" (.str (snippetOfMsg commit_msg)) else d3

/-- Approximation of `str(e)` for the `AttributeError` raised when a
truthy non-dict parse result reaches `data.get(...)`; only the fact
that an exception is raised there matters to any claim, not its
text. -/
def nonDictErrorText : Json → String
  | .str _ => "'str' object has no attribute 'get'"
  | .arr _ => "'list' object has no attribute 'get'"
  | .num raw =>
    if raw.data.any (fun c => c = '.' || c = 'e' || c = 'E') ||
       raw = "NaN" || raw = "Infinity" || raw = "-Infinity"
    then "'float' object has no attribute 'get'"
    else "'int' object has no attribute 'get'"
  | .bool _ => "'bool' object has no attribute 'get'"
  | _ => "'NoneType' object has no attribute 'get'"

/-- The tail of the `try` block of `classify_and_summarize_commit`,
after the `except` path: sanitize, cache, persist, return. -/
def finishSuccess (commit_hash commit_msg : String) (d : JsonFields)
    (cache : JsonFields) (calls : Nat) : ClassifyResult :=
  let d2 := sanitizeData commit_hash commit_msg d
  let cache2 := put_cached commit_hash (.obj d2) cache
  ⟨.obj d2, some (save_cache cache2), calls⟩

/-- The `except` path of `classify_and_summarize_commit`: build the
fallback dict, cache it, persist, return it. -/
def finishException (commit_hash commit_msg e : String)
    (cache : JsonFields) (calls : Nat) : ClassifyResult :=
  let fb := exceptionFallbackData commit_hash commit_msg e
  let cache2 := put_cached commit_hash (.obj fb) cache
  ⟨.obj fb, some (save_cache cache2), calls⟩

def truthyOpt : Option Json → Bool
  | some v => pyTruthy v
  | none => false

/-- Steps 3–6 of the classifier: `data` is the parse result after the
model attempts (`if not data:` installs the heuristic dict); a truthy
non-dict reaches `data.get(...)` and lands in the `except` path. -/
def finishAttempt (commit_hash commit_msg : String) (dataOpt : Option Json)
    (cache : JsonFields) (calls : Nat) : ClassifyResult :=
  match dataOpt with
  | some v =>
    if pyTruthy v then
      match v with
      | .obj f => finishSuccess commit_hash commit_msg f cache calls
      | _ => finishException commit_hash commit_msg (nonDictErrorText v) cache calls
    else finishSuccess commit_hash commit_msg
      (heuristicFallbackData commit_hash commit_msg) cache calls
  | none => finishSuccess commit_hash commit_msg
      (heuristicFallbackData commit_hash commit_msg) cache calls

/-- The model-call phase: strict attempt, relaxed retry when the first
response does not yield a truthy parse, then `finishAttempt`; a raise
in either call takes the `except` path. -/
def attemptPhase (oracle : Nat → LLMOutcome) (commit_hash commit_msg : String)
    (cache : JsonFields) : ClassifyResult :=
  match oracle 0 with
  | .exc e => finishException commit_hash commit_msg e cache 1
  | .ok content =>
    let d1 := _try_parse_json content
    if truthyOpt d1 then finishAttempt commit_hash commit_msg d1 cache 1
    else
      match oracle 1 with
      | .exc e => finishException commit_hash commit_msg e cache 2
      | .ok content2 =>
        finishAttempt commit_hash commit_msg (_try_parse_json content2) cache 2

/-- `classify_and_summarize_commit(commit_block, repo_name, since_date,
to_date, mode)` against cache file `file`.  `none` models the uncaught
exception Python raises when the loaded cache is not a dict or when
`purge_bad_entries` trips over a malformed entry — states this program
never writes.  The prompt strings built from `repo_name`, `since_date`,
`to_date` and `mode` only flow into the model call and are not
rebuilt (the oracle is indexed by call order). -/
def classify_and_summarize_commit (oracle : Nat → LLMOutcome)
    (commit_block repo_name since_date : String) (to_date : Option String)
    (mode : String) (file : Option String) : Option ClassifyResult :=
  let commit_hash := (_extract_commit_hash commit_block).getD "unknown"
  let commit_msg := _extract_commit_message commit_block
  match load_cache file with
  | .obj cache0 =>
    match purge_bad_entries cache0 with
    | none => none
    | some cache =>
      let file1 := some (save_cache cache)
      match get_cached commit_hash cache with
      | some v =>
        if pyTruthy v then some ⟨v, file1, 0⟩
        else some (attemptPhase oracle commit_hash commit_msg cache)
      | none => some (attemptPhase oracle commit_hash commit_msg cache)
  | _ => none

/-! ## `journal/summarize.py` — repository and team aggregators -/

/-- The rule-based fallback of `generate_repo_standup_paragraph`. -/
def repoFallbackParagraph (time_window : String) (team_snips : List String) : String :=
  let short := if team_snips ≠ [] then strJoin ", " (sortStrings (dedupStr team_snips))
               else "progress across multiple areas"
  time_window ++ ", I focused on " ++ short ++
    ". I wrapped up key changes and ensured things are stable."

/-- `generate_repo_standup_paragraph(repo_name, time_window, bullets,
team_snips)`: empty bullet list short-circuits to `""` with no model
call; otherwise one chat call whose stripped response is rejected
(fallback) when under 8 words.  Returns the paragraph and the number
of chat calls made. -/
def generate_repo_standup_paragraph (oracle : Nat → LLMOutcome)
    (repo_name time_window : String) (bullets team_snips : List String) :
    String × Nat :=
  if bullets = [] then ("", 0)
  else
    match oracle 0 with
    | .exc _ => (repoFallbackParagraph time_window team_snips, 1)
    | .ok content =>
      let paragraph := pyStrip content
      if (pySplitWs paragraph).length < 8 then
        (repoFallbackParagraph time_window team_snips, 1)
      else (paragraph, 1)

/-- One repository's summary as consumed by the team aggregator. -/
structure RepoSummaryIn where
  repo_name : String
  standup_summary : String
deriving DecidableEq, Repr

/-- The templated fallback of `generate_team_scrum_paragraph`. -/
def teamFallbackParagraph (time_window : String) (repo_summaries : List RepoSummaryIn) :
    String :=
  time_window ++ ", the team advanced work across " ++
    strJoin ", " (repo_summaries.map (fun r => r.repo_name)) ++
    ", making steady progress on features, fixes, and cleanup."

/-- `generate_team_scrum_paragraph(repo_summaries, since_date, to_date,
mode)`: empty summary list short-circuits to `""` with no model call;
otherwise one chat call whose stripped response is rejected (fallback)
when under 10 words. -/
def generate_team_scrum_paragraph (oracle : Nat → LLMOutcome)
    (repo_summaries : List RepoSummaryIn) (since_date : String)
    (to_date : Option String) (mode : String) : String × Nat :=
  let time_window := _time_window_phrase mode since_date to_date
  if repo_summaries = [] then ("", 0)
  else
    match oracle 0 with
    | .exc _ => (teamFallbackParagraph time_window repo_summaries, 1)
    | .ok content =>
      let paragraph := pyStrip content
      if (pySplitWs paragraph).length < 10 then
        (teamFallbackParagraph time_window repo_summaries, 1)
      else (paragraph, 1)

/-! ## `journal/multi_repo_git_utils.py` — commit extraction -/

/-- The outcome of one `subprocess.run`: the completed process, or the
text of a raised `OSError`-like exception. -/
structure ProcOut where
  returncode : Int
  stdout : String
  stderr : String
deriving DecidableEq, Repr

inductive ProcResult where
  | res (p : ProcOut)
  | exc (message : String)
deriving DecidableEq, Repr

def EXCLUDED_PATTERNS : List String :=
  ["venv/", ".venv/", "__pycache__", ".git/", "env/", "site-packages",
   "/bin/", "/lib/", "dist-info"]

/-- `PurePosixPath` normalisation as rendered by `as_posix()`:
collapse duplicate slashes, drop `.` components, keep a root `/`
(a double — but not triple — leading slash is kept verbatim), and
render the empty path as `.`. -/
def posixPathStr (s : String) : String :=
  let comps := (pySplitOn s "/").filter (fun c => c ≠ "" && c ≠ ".")
  let body := strJoin "/" comps
  let slashes := s.data.takeWhile (fun c => c = '/')
  if slashes.length = 2 then "//" ++ body
  else if slashes.length ≥ 1 then "/" ++ body
  else if body = "" then "." else body

/-- `should_exclude(line)`. -/
def should_exclude (line : String) : Bool :=
  let normalized := pyLower (posixPathStr (pyStrip line))
  EXCLUDED_PATTERNS.any (fun pat => containsSub normalized pat)

/-- `get_commit_diff_stats(repo_path, commit_hash)`, with the
subprocess call abstracted to its outcome. -/
def get_commit_diff_stats (proc : ProcResult) : String :=
  match proc with
  | .res p =>
    if p.returncode = 0 then pyStrip p.stdout
    else "[Error fetching diff: " ++ pyStrip p.stderr ++ "]"
  | .exc e => "[Exception: " ++ e ++ "]"

/-- Processing of one block inside the loop of
`get_commits_from_repo`: filter file lines, and when any survive,
rebuild the block with the diff-stat text appended. -/
def processBlock (diffProc : String → ProcResult) (block : String) : Option String :=
  let lines := pySplitOn (pyStrip block) "\n"
  match lines with
  | [] => none
  | commit_header :: file_lines =>
    let filtered_files := file_lines.filter (fun f => !should_exclude f)
    if filtered_files ≠ [] then
      let commit_hash := (pySplitWs commit_header).headD ""
      let diff := get_commit_diff_stats (diffProc commit_hash)
      some (commit_header ++ "\n" ++ strJoin "\n" filtered_files ++ "\n\n" ++ diff)
    else none

/-- `get_commits_from_repo(repo_path, since_date, to_date)`:
`logProc` is the outcome of the `git log` subprocess and `diffProc`
the outcome of the `git show --stat` subprocess for a given hash. -/
def get_commits_from_repo (logProc : ProcResult) (diffProc : String → ProcResult)
    (repo_path : String) : String :=
  match logProc with
  | .exc e => "[Error reading repo " ++ repo_path ++ "]: " ++ e
  | .res p =>
    if p.returncode ≠ 0 || pyStrip p.stdout = "" then ""
    else
      let blocks := pySplitOn (pyStrip p.stdout) "===COMMIT==="
      let included_blocks := blocks.filterMap (processBlock diffProc)
      if included_blocks ≠ [] then
        strJoin "\n\n===COMMIT===\n\n" included_blocks
      else ""

/-! ## `core/scanner.py` — commit statistics and the scanner heuristic -/

structure CommitStats where
  files_changed : Nat
  insertions : Nat
  deletions : Nat
deriving DecidableEq, Repr

def digitsToNat (ds : List Char) : Nat :=
  ds.foldl (fun acc c => 10 * acc + (c.toNat - 48)) 0

/-- `re.search(r"(\d+) <stem>s? <tail>", out)`: leftmost digit run
followed by the literal `stem`, an optional `s`, then the literal
`tail`; returns the captured integer. -/
def searchCount (stem tail : List Char) : List Char → Option Nat
  | [] => none
  | c :: cs =>
    if isDigitC c then
      let run := (c :: cs).takeWhile isDigitC
      let after := (c :: cs).dropWhile isDigitC
      if startsWithL stem after &&
         (startsWithL ('s' :: tail) (after.drop stem.length) ||
          startsWithL tail (after.drop stem.length)) then
        some (digitsToNat run)
      else searchCount stem tail cs
    else searchCount stem tail cs

/-- `get_commit_stats(repo_path, commit_hash)`: `None` on a non-zero
exit or a raise; otherwise the three fixed-pattern extractions, each
defaulting to 0. -/
def get_commit_stats (proc : ProcResult) : Option CommitStats :=
  match proc with
  | .exc _ => none
  | .res p =>
    if p.returncode ≠ 0 then none
    else some
      { files_changed :=
          (searchCount " file".data " changed".data p.stdout.data).getD 0
        insertions :=
          (searchCount " insertion".data "(+)".data p.stdout.data).getD 0
        deletions :=
          (searchCount " deletion".data "(-)".data p.stdout.data).getD 0 }

/-- The `WorkType` enumeration of `core/types.py`. -/
inductive WorkType where
  | feature | bugfix | refactor | docs | test | chore | perf | build | ci | other
deriving DecidableEq, Repr

/-- `RepositoryScanner._heuristic_work_type(message)`: the same
ordered keyword matching as the journal heuristic, returning the
enumeration. -/
def scannerHeuristicWorkType (message : String) : WorkType :=
  let m := pyLower message
  if containsSub m "fix" || containsSub m "bug" || containsSub m "hotfix" ||
     containsSub m "patch" then .bugfix
  else if containsSub m "feat" || containsSub m "feature" || containsSub m "add" ||
     containsSub m "implement" then .feature
  else if containsSub m "refactor" || containsSub m "cleanup" ||
     containsSub m "restructure" then .refactor
  else if containsSub m "doc" || containsSub m "readme" ||
     containsSub m "changelog" then .docs
  else if containsSub m "test" || containsSub m "spec" || containsSub m "unit test" ||
     containsSub m "unittest" then .test
  else if containsSub m "perf" || containsSub m "optimiz" then .perf
  else if containsSub m "build" || containsSub m "packag" then .build
  else if containsSub m "ci" || containsSub m "pipeline" ||
     containsSub m "workflow" then .ci
  else if containsSub m "chore" || containsSub m "deps" || containsSub m "dependency" ||
     containsSub m "bump" then .chore
  else .other

/-- The statistics defaulting in `RepositoryScanner._parse_commit_block`:
`if stats: ...` uses the fields, `else` zeros (a returned dict always
has three keys, hence is truthy). -/
def statsOrZeros (stats : Option CommitStats) : CommitStats :=
  match stats with
  | some s => s
  | none => ⟨0, 0, 0⟩

/-! ## Auxiliary definitions for the verification development -/

def escapeL (cs : List Char) : List Char := (cs.map escapeChar).flatten

/-- The head of `l`, if present, falsifies `p`. -/
def headNone (p : Char → Bool) : List Char → Prop
  | [] => True
  | c :: _ => p c = false

def digitsOnly (ds : List Char) : Prop := ∀ c ∈ ds, isDigitC c = true

/-- Shape of the integer part of `NUMBER_RE`: `0` or `[1-9][0-9]*`. -/
def IntShape (ip : List Char) : Prop :=
  ip = ['0'] ∨ (∃ c ds, ip = c :: ds ∧ isDigitC c = true ∧ c ≠ '0' ∧ digitsOnly ds)

/-- Shape of the fraction part `(\.\d+)?`. -/
def FracShape (fp : List Char) : Prop :=
  fp = [] ∨ (∃ ds, fp = '.' :: ds ∧ ds ≠ [] ∧ digitsOnly ds)

/-- Shape of the exponent part `([eE][-+]?\d+)?`. -/
def ExpShape (ep : List Char) : Prop :=
  ep = [] ∨ (∃ e ds, (e = 'e' ∨ e = 'E') ∧ ds ≠ [] ∧ digitsOnly ds ∧
    (ep = e :: ds ∨ ∃ s, (s = '+' ∨ s = '-') ∧ ep = e :: s :: ds))

/-- A full `NUMBER_RE` match. -/
def NumShape (tok : List Char) : Prop :=
  ∃ sgn ip fp ep, (sgn = [] ∨ sgn = ['-']) ∧ IntShape ip ∧ FracShape fp ∧
    ExpShape ep ∧ tok = sgn ++ ip ++ fp ++ ep

/-- Characters that legitimately follow a number token in the
serialised output: a separator, a newline, or a closing bracket. -/
def numStopChar (c : Char) : Prop := c = ',' ∨ c = '\n' ∨ c = ']' ∨ c = '\x7d'

def numStop : List Char → Prop
  | [] => True
  | c :: _ => numStopChar c

/-- Does `cs` constitute exactly one valid `NUMBER_RE` token? -/
def checkNumB (cs : List Char) : Bool :=
  match lexNum cs with
  | some (tok, rest) => decide (tok = cs) && decide (rest = [])
  | none => false

mutual
/-- A value `json.dumps` can write and `json.loads` reads back: number
lexemes are valid tokens (or the three constants) and all dict keys
are distinct. -/
def WFj : Json → Bool
  | .null => true
  | .bool _ => true
  | .str _ => true
  | .num raw =>
    checkNumB raw.data || raw = "NaN" || raw = "Infinity" || raw = "-Infinity"
  | .arr xs => WFl xs
  | .obj fs => fs.nodupKeys && WFf fs

def WFl : JsonList → Bool
  | .nil => true
  | .cons v tl => WFj v && WFl tl

def WFf : JsonFields → Bool
  | .nil => true
  | .cons _ v tl => WFj v && WFf tl
end

mutual
/-- Fuel needed by `parseValue` to read back the serialisation. -/
def jfuel : Json → Nat
  | .arr .nil => 1
  | .arr (.cons v tl) => 1 + jlfuel (.cons v tl)
  | .obj .nil => 1
  | .obj (.cons k v tl) => 1 + jffuel (.cons k v tl)
  | _ => 1

def jlfuel : JsonList → Nat
  | .nil => 0
  | .cons v tl => 1 + jfuel v + jlfuel tl

def jffuel : JsonFields → Nat
  | .nil => 0
  | .cons _ v tl => 1 + jfuel v + jffuel tl
end

def jlToList : JsonList → List Json
  | .nil => []
  | .cons v tl => v :: jlToList tl

def fAppend : JsonFields → JsonFields → JsonFields
  | .nil, g => g
  | .cons k v tl, g => .cons k v (fAppend tl g)

/-- The entries `purge_bad_entries` keeps, as a single filtering pass. -/
def purgeFilter : JsonFields → JsonFields
  | .nil => .nil
  | .cons k v tl =>
    if entryIsBad v = some true then purgeFilter tl
    else .cons k v (purgeFilter tl)

/-- The spec's wording for a purgeable entry: its bullet text contains
the failure marker. -/
def specBulletHasMarker (v : Json) : Bool :=
  match v with
  | .obj fs =>
    match fs.get "bullet" with
    | some (.str b) => containsSub b "summary unavailable"
    | _ => false
  | _ => false

/-- The spec's wording of the purge pass: drop exactly the entries
whose bullet text contains the failure marker. -/
def specPurge : JsonFields → JsonFields
  | .nil => .nil
  | .cons k v tl =>
    if specBulletHasMarker v then specPurge tl else .cons k v (specPurge tl)

/-- Every entry's bullet, when present, is a plain string (true of
every state this program writes; a non-string bullet makes Python's
`in` test raise instead). -/
def stringBullets : JsonFields → Bool
  | .nil => true
  | .cons _ v tl =>
    (match v with
     | .obj g =>
       (match g.get "bullet" with
        | some (.str _) => true
        | none => true
        | some _ => false)
     | _ => true) && stringBullets tl


/-! ## Claim C5 -/

theorem somePair_inj : ∀ {α β : Type} {a c : α} {b d : β},
    (some (a, b) : Option (α × β)) = some (c, d) → a = c ∧ b = d :=
  fun h => ⟨congrArg Prod.fst (Option.some.inj h),
    congrArg Prod.snd (Option.some.inj h)⟩



/-- C5: the lenient-parse pipeline applied to the model response
`"Sure! ```json\n{"work_type": "feature",}\n```"` — a prose prefix, a
code fence, and a trailing comma — succeeds after fence stripping,
balanced-brace extraction and trailing-comma removal, yielding an
object whose `work_type` field is `"feature"`. -/
theorem C5_lenient_parse_of_fenced_trailing_comma :
    _try_parse_json "Sure! ```json\n\x7b\"work_type\": \"feature\",\x7d\n```" =
      some (.obj (.cons "work_type" (.str "feature") .nil)) ∧
    (JsonFields.cons "work_type" (.str "feature") .nil).get "work_type" =
      some (.str "feature") := by
  constructor
  · decide
  · decide

/-! ## Claim C7 -/

/-- C7: any commit message whose lower-cased text contains `"fix"` is
classified `bugfix` by both heuristic fallbacks (the journal one and
the scanner one): the bugfix keyword group is tested first, so feature
keywords such as `"add"` in the same message cannot win. -/
theorem C7_fix_always_bugfix (msg : String)
    (h : containsSub (pyLower msg) "fix" = true) :
    _heuristic_work_type msg = "bugfix" ∧
    scannerHeuristicWorkType msg = WorkType.bugfix := by
  constructor
  · simp only [_heuristic_work_type, h, Bool.true_or, if_true]
  · simp only [scannerHeuristicWorkType, h, Bool.true_or, if_true]

/-- Witness for C7 at a message containing both `"fix"` and `"add"`. -/
theorem C7_fix_always_bugfix_witness :
    _heuristic_work_type "Fix crash and add logging" = "bugfix" ∧
    scannerHeuristicWorkType "Fix crash and add logging" = WorkType.bugfix :=
  C7_fix_always_bugfix "Fix crash and add logging" (by decide)

/-! ## Claim C8 -/

/-- C8: fixed-pattern statistics extraction: the literal
`"3 files changed, 45 insertions(+), 12 deletions(-)"` yields
`(3, 45, 12)`; `"1 file changed, 2 insertions(+)"` (no deletions
clause) yields `deletions = 0`; an absent pattern defaults its field
to 0; and a failed query (non-zero exit or a raise) yields `None`,
which the scanner's defaulting turns into zeros rather than an
error. -/
theorem C8_stats_extraction :
    get_commit_stats
        (.res ⟨0, "3 files changed, 45 insertions(+), 12 deletions(-)", ""⟩) =
      some ⟨3, 45, 12⟩ ∧
    get_commit_stats (.res ⟨0, "1 file changed, 2 insertions(+)", ""⟩) =
      some ⟨1, 2, 0⟩ ∧
    (∀ s : String,
      searchCount " deletion".data "(-)".data s.data = none →
      ∀ st, get_commit_stats (.res ⟨0, s, ""⟩) = some st → st.deletions = 0) ∧
    (∀ p : ProcOut, p.returncode ≠ 0 → get_commit_stats (.res p) = none) ∧
    (∀ e, get_commit_stats (.exc e) = none) ∧
    statsOrZeros none = ⟨0, 0, 0⟩ := by
  refine ⟨by decide, by decide, ?_, ?_, fun e => rfl, rfl⟩
  · intro s hnone st hst
    simp only [get_commit_stats, if_neg (by decide : ¬ ((0 : Int) ≠ 0)),
      Option.some.injEq] at hst
    subst hst
    simp [hnone]
  · intro p hrc
    simp [get_commit_stats, hrc]

/-- Witness for C8's quantified conjuncts at concrete inputs. -/
theorem C8_stats_extraction_witness :
    get_commit_stats (.res ⟨128, "fatal: bad object", "err"⟩) = none ∧
    (∀ st, get_commit_stats (.res ⟨0, "1 file changed, 2 insertions(+)", ""⟩) =
      some st → st.deletions = 0) :=
  ⟨C8_stats_extraction.2.2.2.1 ⟨128, "fatal: bad object", "err"⟩ (by decide),
   C8_stats_extraction.2.2.1 "1 file changed, 2 insertions(+)" (by decide)⟩

/-! ## Claim C9 -/

/-- C9: given an empty bullet list the Repository Aggregator returns
the empty paragraph with zero model calls, and given an empty
repository-summary list the Team Aggregator returns the empty
paragraph with zero model calls. -/
theorem C9_empty_input_no_model_call (oracle oracle2 : Nat → LLMOutcome)
    (repo_name time_window : String) (team_snips : List String)
    (since_date : String) (to_date : Option String) (mode : String) :
    generate_repo_standup_paragraph oracle repo_name time_window [] team_snips =
      ("", 0) ∧
    generate_team_scrum_paragraph oracle2 [] since_date to_date mode = ("", 0) :=
  ⟨rfl, rfl⟩

/-! ## Claim C4 -/

/-- C4 counterexample: an I/O failure of the version-control query
does **not** yield the empty "no commits" result: the exception is
caught but the returned string is a non-empty bracketed error message,
which the caller (`if not raw_log: continue`) treats as repository
activity. -/
theorem C4_counterexample :
    get_commits_from_repo (.exc "boom") (fun _ => .res ⟨0, "", ""⟩) "myrepo" =
      "[Error reading repo myrepo]: boom" ∧
    ("[Error reading repo myrepo]: boom" : String) ≠ "" := by
  constructor
  · rfl
  · decide

/-- C4 amended: a non-zero exit (or empty output) of the
version-control query yields the empty "no commits" result; an I/O
exception is caught — extraction never raises — but yields the
bracketed string `"[Error reading repo <path>]: <error>"`, not the
empty result. -/
theorem C4_amended_failure_semantics (p : ProcOut)
    (diffProc : String → ProcResult) (repo_path : String)
    (hrc : p.returncode ≠ 0) (e : String) :
    get_commits_from_repo (.res p) diffProc repo_path = "" ∧
    get_commits_from_repo (.exc e) diffProc repo_path =
      "[Error reading repo " ++ repo_path ++ "]: " ++ e := by
  constructor
  · simp [get_commits_from_repo, hrc]
  · rfl

/-- Witness for C4 amended at a concrete non-zero exit. -/
theorem C4_amended_failure_semantics_witness :
    get_commits_from_repo (.res ⟨128, "x", "fatal"⟩)
      (fun _ => .res ⟨0, "", ""⟩) "r" = "" ∧
    get_commits_from_repo (.exc "io") (fun _ => .res ⟨0, "", ""⟩) "r" =
      "[Error reading repo r]: io" :=
  C4_amended_failure_semantics ⟨128, "x", "fatal"⟩ (fun _ => .res ⟨0, "", ""⟩)
    "r" (by decide) "io"

/-! ## Serialisation correctness: auxiliary lemmas -/

theorem escapeString_eq (s : String) : escapeString s = escapeL s.data := rfl

theorem escapeL_cons (c : Char) (cs : List Char) :
    escapeL (c :: cs) = escapeChar c ++ escapeL cs := by
  simp [escapeL]

theorem takeWhile_dropWhile_append (p : Char → Bool) (ds tail : List Char)
    (h1 : ∀ c ∈ ds, p c = true) (h2 : headNone p tail) :
    (ds ++ tail).takeWhile p = ds ∧ (ds ++ tail).dropWhile p = tail := by
  induction ds with
  | nil =>
    simp only [List.nil_append]
    cases tail with
    | nil => simp
    | cons c cs =>
      simp only [headNone] at h2
      simp [List.takeWhile_cons, List.dropWhile_cons, h2]
  | cons d ds ih =>
    have hd : p d = true := h1 d (by simp)
    have hih := ih (fun c hc => h1 c (by simp [hc]))
    simp [List.takeWhile_cons, List.dropWhile_cons, hd, hih.1, hih.2]

theorem skipWs_ws_append (ws r : List Char) (h : ∀ c ∈ ws, isJsonWs c = true) :
    skipWs (ws ++ r) = skipWs r := by
  induction ws with
  | nil => simp
  | cons c cs ih =>
    have hc : isJsonWs c = true := h c (by simp)
    simp only [skipWs, List.cons_append, List.dropWhile_cons, hc, if_true]
    exact ih (fun d hd => h d (by simp [hd]))

theorem skipWs_headNone (r : List Char) (h : headNone isJsonWs r) :
    skipWs r = r := by
  cases r with
  | nil => rfl
  | cons c cs =>
    simp only [headNone] at h
    simp [skipWs, List.dropWhile_cons, h]

theorem skipWs_nlIndent (n : Nat) (r : List Char) :
    skipWs (nlIndent n ++ r) = skipWs r := by
  apply skipWs_ws_append
  intro c hc
  simp only [nlIndent, List.mem_cons, List.mem_replicate] at hc
  rcases hc with h | h
  · subst h; decide
  · rw [h.2]; decide

theorem hexVal_hexDigit : ∀ n, n < 16 → hexVal (hexDigit n) = some n := by decide

/-- Step lemma: closing quote. -/
theorem parseStrBody_quote (f : Nat) (rest : List Char) :
    parseStrBody (f + 1) ('"' :: rest) = some ([], rest) := rfl

theorem parseStrBody_ord (f : Nat) (c : Char) (rest : List Char)
    (h1 : ¬ c = '"') (h2 : ¬ c = '\\') (h3 : ¬ c.toNat < 32) :
    parseStrBody (f + 1) (c :: rest) =
      (parseStrBody f rest).map (fun p => (c :: p.1, p.2)) := by
  simp only [parseStrBody, if_neg h1, if_neg h2, if_neg h3]

theorem parseStrBody_escQuote (f : Nat) (rest : List Char) :
    parseStrBody (f + 1) ('\\' :: '"' :: rest) =
      (parseStrBody f rest).map (fun p => ('"' :: p.1, p.2)) := rfl

theorem parseStrBody_escBackslash (f : Nat) (rest : List Char) :
    parseStrBody (f + 1) ('\\' :: '\\' :: rest) =
      (parseStrBody f rest).map (fun p => ('\\' :: p.1, p.2)) := rfl

theorem parseStrBody_escB (f : Nat) (rest : List Char) :
    parseStrBody (f + 1) ('\\' :: 'b' :: rest) =
      (parseStrBody f rest).map (fun p => ('\x08' :: p.1, p.2)) := rfl

theorem parseStrBody_escF (f : Nat) (rest : List Char) :
    parseStrBody (f + 1) ('\\' :: 'f' :: rest) =
      (parseStrBody f rest).map (fun p => ('\x0c' :: p.1, p.2)) := rfl

theorem parseStrBody_escN (f : Nat) (rest : List Char) :
    parseStrBody (f + 1) ('\\' :: 'n' :: rest) =
      (parseStrBody f rest).map (fun p => ('\n' :: p.1, p.2)) := rfl

theorem parseStrBody_escR (f : Nat) (rest : List Char) :
    parseStrBody (f + 1) ('\\' :: 'r' :: rest) =
      (parseStrBody f rest).map (fun p => ('\x0d' :: p.1, p.2)) := rfl

theorem parseStrBody_escT (f : Nat) (rest : List Char) :
    parseStrBody (f + 1) ('\\' :: 't' :: rest) =
      (parseStrBody f rest).map (fun p => ('\t' :: p.1, p.2)) := rfl

theorem hex4_00 (t : Nat) (ht : t < 256) :
    hex4 '0' '0' (hexDigit (t / 16)) (hexDigit (t % 16)) = some t := by
  have h0 : hexVal '0' = some 0 := by decide
  simp only [hex4, h0, hexVal_hexDigit (t / 16) (by omega),
    hexVal_hexDigit (t % 16) (by omega), Option.some.injEq]
  have := Nat.div_add_mod t 16
  omega

/-- Step lemma: a `\u00xy` escape with `xy < 0x20` decodes to that
code point. -/
theorem parseStrBody_u00 (f : Nat) (t : Nat) (rest : List Char)
    (ht : t < 32) :
    parseStrBody (f + 1)
        ('\\' :: 'u' :: '0' :: '0' :: hexDigit (t / 16) :: hexDigit (t % 16) :: rest) =
      (parseStrBody f rest).map (fun p => (Char.ofNat t :: p.1, p.2)) := by
  simp +decide only [parseStrBody, if_true, if_false, hex4_00 t (by omega)]
  rw [if_neg (by simp; omega : ¬ (0xd800 ≤ t && t ≤ 0xdbff) = true)]

/-- Round-trip of the string-literal body: parsing the escaped form of
`cs` followed by the closing quote recovers `cs`. -/
theorem parseStrBody_escape (cs : List Char) : ∀ fuel rest,
    (escapeL cs).length + 1 ≤ fuel →
    parseStrBody fuel (escapeL cs ++ '"' :: rest) = some (cs, rest) := by
  induction cs with
  | nil =>
    intro fuel rest hfuel
    obtain ⟨f, rfl⟩ : ∃ g, fuel = g + 1 := ⟨fuel - 1, by omega⟩
    simpa [escapeL] using parseStrBody_quote f rest
  | cons c cs ih =>
    intro fuel rest hfuel
    rw [escapeL_cons] at hfuel ⊢
    obtain ⟨f, rfl⟩ : ∃ g, fuel = g + 1 := ⟨fuel - 1, by omega⟩
    rw [List.append_assoc]
    by_cases h1 : c = '"'
    · subst h1
      rw [show escapeChar '"' = ['\\', '"'] from rfl] at hfuel ⊢
      rw [List.cons_append, List.cons_append, List.nil_append,
        parseStrBody_escQuote, ih f rest (by simp at hfuel; omega)]
      rfl
    · by_cases h2 : c = '\\'
      · subst h2
        rw [show escapeChar '\\' = ['\\', '\\'] from rfl] at hfuel ⊢
        rw [List.cons_append, List.cons_append, List.nil_append,
          parseStrBody_escBackslash, ih f rest (by simp at hfuel; omega)]
        rfl
      · by_cases h3 : c = '\x08'
        · subst h3
          rw [show escapeChar '\x08' = ['\\', 'b'] from rfl] at hfuel ⊢
          rw [List.cons_append, List.cons_append, List.nil_append,
            parseStrBody_escB, ih f rest (by simp at hfuel; omega)]
          rfl
        · by_cases h4 : c = '\x0c'
          · subst h4
            rw [show escapeChar '\x0c' = ['\\', 'f'] from rfl] at hfuel ⊢
            rw [List.cons_append, List.cons_append, List.nil_append,
              parseStrBody_escF, ih f rest (by simp at hfuel; omega)]
            rfl
          · by_cases h5 : c = '\n'
            · subst h5
              rw [show escapeChar '\n' = ['\\', 'n'] from rfl] at hfuel ⊢
              rw [List.cons_append, List.cons_append, List.nil_append,
                parseStrBody_escN, ih f rest (by simp at hfuel; omega)]
              rfl
            · by_cases h6 : c = '\x0d'
              · subst h6
                rw [show escapeChar '\x0d' = ['\\', 'r'] from rfl] at hfuel ⊢
                rw [List.cons_append, List.cons_append, List.nil_append,
                  parseStrBody_escR, ih f rest (by simp at hfuel; omega)]
                rfl
              · by_cases h7 : c = '\t'
                · subst h7
                  rw [show escapeChar '\t' = ['\\', 't'] from rfl] at hfuel ⊢
                  rw [List.cons_append, List.cons_append, List.nil_append,
                    parseStrBody_escT, ih f rest (by simp at hfuel; omega)]
                  rfl
                · by_cases h8 : c.toNat < 32
                  · have hesc : escapeChar c =
                        ['\\', 'u', '0', '0', hexDigit (c.toNat / 16),
                         hexDigit (c.toNat % 16)] := by
                      simp only [escapeChar, if_neg h1, if_neg h2, if_neg h3,
                        if_neg h4, if_neg h5, if_neg h6, if_neg h7, if_pos h8]
                    rw [hesc] at hfuel ⊢
                    simp only [List.cons_append, List.nil_append] at hfuel ⊢
                    rw [parseStrBody_u00 f c.toNat _ h8,
                      ih f rest (by simp at hfuel; omega)]
                    simp [Char.ofNat_toNat]
                  · have hesc : escapeChar c = [c] := by
                      simp only [escapeChar, if_neg h1, if_neg h2, if_neg h3,
                        if_neg h4, if_neg h5, if_neg h6, if_neg h7, if_neg h8]
                    rw [hesc] at hfuel ⊢
                    simp only [List.cons_append, List.nil_append] at hfuel ⊢
                    rw [parseStrBody_ord f c _ h1 h2 h8,
                      ih f rest (by simp at hfuel; omega)]
                    rfl

/-! ### Number lexemes: shape, soundness, completeness -/

theorem numStopChar_not_digit (c : Char) (h : numStopChar c) : isDigitC c = false := by
  rcases h with h | h | h | h <;> subst h <;> decide

theorem numStopChar_not_dot (c : Char) (h : numStopChar c) : (c = '.') = False := by
  rcases h with h | h | h | h <;> subst h <;> decide

theorem numStopChar_not_e (c : Char) (h : numStopChar c) :
    (c = 'e' || c = 'E') = false := by
  rcases h with h | h | h | h <;> subst h <;> decide

theorem intShape_head (ip : List Char) (h : IntShape ip) :
    ∃ c tl, ip = c :: tl ∧ isDigitC c = true := by
  rcases h with h | ⟨c, ds, rfl, hc, _, _⟩
  · exact ⟨'0', [], h, by decide⟩
  · exact ⟨c, ds, rfl, hc⟩

theorem lexInt_app (ip tail : List Char) (h : IntShape ip)
    (ht : headNone isDigitC tail) : lexInt (ip ++ tail) = some (ip, tail) := by
  rcases h with h | ⟨c, ds, rfl, hc, hc0, hds⟩
  · subst h
    simp [lexInt]
  · have htw := takeWhile_dropWhile_append isDigitC ds tail hds ht
    have hcne : (c = '0') = False := by simp [hc0]
    simp [lexInt, hcne, hc, htw.1, htw.2]

theorem lexFrac_none (cs : List Char) (h : headNone (fun c => c = '.') cs) :
    lexFrac cs = ([], cs) := by
  cases cs with
  | nil => rfl
  | cons c rest =>
    simp only [headNone, decide_eq_false_iff_not] at h
    simp [lexFrac, h]

theorem lexFrac_some (ds tail : List Char) (hne : ds ≠ []) (hds : digitsOnly ds)
    (ht : headNone isDigitC tail) :
    lexFrac ('.' :: ds ++ tail) = ('.' :: ds, tail) := by
  have htw := takeWhile_dropWhile_append isDigitC ds tail hds ht
  simp [lexFrac, htw.1, htw.2, hne]

theorem lexExp_none (cs : List Char) (h : headNone (fun c => c = 'e' || c = 'E') cs) :
    lexExp cs = ([], cs) := by
  cases cs with
  | nil => rfl
  | cons c rest =>
    simp only [headNone, Bool.or_eq_false_iff, decide_eq_false_iff_not] at h
    simp [lexExp, h.1, h.2]

theorem lexExp_unsigned (e : Char) (ds tail : List Char) (he : e = 'e' ∨ e = 'E')
    (hne : ds ≠ []) (hds : digitsOnly ds) (ht : headNone isDigitC tail) :
    lexExp (e :: ds ++ tail) = (e :: ds, tail) := by
  have htw := takeWhile_dropWhile_append isDigitC ds tail hds ht
  obtain ⟨d, ds', rfl⟩ : ∃ d ds', ds = d :: ds' := by
    cases ds with
    | nil => exact absurd rfl hne
    | cons d ds' => exact ⟨d, ds', rfl⟩
  have hd : isDigitC d = true := hds d (by simp)
  have hdp : ¬ (d = '+') := by
    intro heq; subst heq; exact absurd hd (by decide)
  have hdm : ¬ (d = '-') := by
    intro heq; subst heq; exact absurd hd (by decide)
  have hee : (e = 'e' || e = 'E') = true := by
    rcases he with h | h <;> simp [h]
  simp only [List.cons_append] at htw ⊢
  simp [lexExp, hee, hdp, hdm, htw.1, htw.2]

theorem lexExp_signed (e s : Char) (ds tail : List Char) (he : e = 'e' ∨ e = 'E')
    (hs : s = '+' ∨ s = '-') (hne : ds ≠ []) (hds : digitsOnly ds)
    (ht : headNone isDigitC tail) :
    lexExp (e :: s :: ds ++ tail) = (e :: s :: ds, tail) := by
  have htw := takeWhile_dropWhile_append isDigitC ds tail hds ht
  have hee : (e = 'e' || e = 'E') = true := by
    rcases he with h | h <;> simp [h]
  have hss : (s = '+' || s = '-') = true := by
    rcases hs with h | h <;> simp [h]
  simp only [List.cons_append] at htw ⊢
  simp [lexExp, hee, hss, htw.1, htw.2, hne]

theorem numStop_headNone_digit (ext : List Char) (h : numStop ext) :
    headNone isDigitC ext := by
  cases ext with
  | nil => trivial
  | cons c cs => exact numStopChar_not_digit c h

theorem numStop_headNone_dot (ext : List Char) (h : numStop ext) :
    headNone (fun c => c = '.') ext := by
  cases ext with
  | nil => trivial
  | cons c cs =>
    simp only [headNone, decide_eq_false_iff_not]
    rcases h with h | h | h | h <;> subst h <;> decide

theorem numStop_headNone_e (ext : List Char) (h : numStop ext) :
    headNone (fun c => c = 'e' || c = 'E') ext := by
  cases ext with
  | nil => trivial
  | cons c cs =>
    simp only [headNone, Bool.or_eq_false_iff, decide_eq_false_iff_not]
    rcases h with h | h | h | h <;> subst h <;> exact ⟨by decide, by decide⟩

theorem expShape_head_cases (ep : List Char) (hep : ExpShape ep) :
    ep = [] ∨ ∃ e tl, ep = e :: tl ∧ (e = 'e' ∨ e = 'E') := by
  rcases hep with h | ⟨e, ds, he, hne, hds, hshape⟩
  · exact Or.inl h
  · rcases hshape with h | ⟨s, hs, h⟩
    · exact Or.inr ⟨e, ds, h, he⟩
    · exact Or.inr ⟨e, s :: ds, h, he⟩

theorem expShape_headNone_digit (ep ext : List Char) (hep : ExpShape ep)
    (hext : numStop ext) : headNone isDigitC (ep ++ ext) := by
  rcases expShape_head_cases ep hep with h | ⟨e, tl, rfl, he⟩
  · subst h; exact numStop_headNone_digit ext hext
  · simp only [List.cons_append, headNone]
    rcases he with h | h <;> subst h <;> decide

theorem expShape_headNone_dot (ep ext : List Char) (hep : ExpShape ep)
    (hext : numStop ext) : headNone (fun c => c = '.') (ep ++ ext) := by
  rcases expShape_head_cases ep hep with h | ⟨e, tl, rfl, he⟩
  · subst h; exact numStop_headNone_dot ext hext
  · simp only [List.cons_append, headNone]
    rcases he with h | h <;> subst h <;> decide

theorem fracShape_headNone_digit (fp ep ext : List Char) (hfp : FracShape fp)
    (hep : ExpShape ep) (hext : numStop ext) :
    headNone isDigitC (fp ++ ep ++ ext) := by
  rcases hfp with h | ⟨ds, rfl, hne, hds⟩
  · subst h
    simpa using expShape_headNone_digit ep ext hep hext
  · simp only [List.cons_append, headNone]
    decide

/-- After the integer part, the fraction and exponent lexers consume
exactly the shaped fraction and exponent. -/
theorem lexFracExp_assemble (fp ep ext : List Char) (hfp : FracShape fp)
    (hep : ExpShape ep) (hext : numStop ext) :
    lexFrac (fp ++ ep ++ ext) = (fp, ep ++ ext) ∧
    lexExp (ep ++ ext) = (ep, ext) := by
  constructor
  · rcases hfp with h | ⟨ds, rfl, hne, hds⟩
    · subst h
      simp only [List.nil_append]
      exact lexFrac_none (ep ++ ext) (expShape_headNone_dot ep ext hep hext)
    · have := lexFrac_some ds (ep ++ ext) hne hds
        (expShape_headNone_digit ep ext hep hext)
      simpa using this
  · rcases hep with h | ⟨e, ds, he, hne, hds, hshape⟩
    · subst h
      simp only [List.nil_append]
      exact lexExp_none ext (numStop_headNone_e ext hext)
    · rcases hshape with h | ⟨s, hs, h⟩
      · subst h
        simpa using lexExp_unsigned e ds ext he hne hds
          (numStop_headNone_digit ext hext)
      · subst h
        simpa using lexExp_signed e s ds ext he hs hne hds
          (numStop_headNone_digit ext hext)

/-- Completeness of the number lexer: a shaped token followed by a
stopper is consumed exactly. -/
theorem lexNum_assemble (sgn ip fp ep ext : List Char)
    (hs : sgn = [] ∨ sgn = ['-']) (hip : IntShape ip) (hfp : FracShape fp)
    (hep : ExpShape ep) (hext : numStop ext) :
    lexNum (sgn ++ ip ++ fp ++ ep ++ ext) = some (sgn ++ ip ++ fp ++ ep, ext) := by
  obtain ⟨c, tl, rfl, hc⟩ := intShape_head ip hip
  have hcm : ¬ (c = '-') := by
    intro heq; subst heq; exact absurd hc (by decide)
  have hint := lexInt_app (c :: tl) (fp ++ ep ++ ext) hip
    (fracShape_headNone_digit fp ep ext hfp hep hext)
  have hfe := lexFracExp_assemble fp ep ext hfp hep hext
  rcases hs with h | h <;> subst h
  · simp only [List.nil_append, List.cons_append, List.append_assoc] at hint hfe ⊢
    simp [lexNum, headIs, hcm, hint, hfe.1, hfe.2, List.append_assoc]
  · simp only [List.cons_append, List.append_assoc] at hint hfe ⊢
    simp [lexNum, headIs, hint, hfe.1, hfe.2, List.append_assoc]

theorem lexInt_inv (cs ip rest : List Char) (h : lexInt cs = some (ip, rest)) :
    IntShape ip ∧ cs = ip ++ rest := by
  cases cs with
  | nil => exact absurd h (by simp [lexInt])
  | cons c r =>
    by_cases h0 : c = '0'
    · subst h0
      simp only [lexInt, if_pos rfl, Prod.mk.injEq, Option.some.injEq] at h
      obtain ⟨rfl, rfl⟩ := h
      exact ⟨Or.inl rfl, rfl⟩
    · by_cases hd : isDigitC c = true
      · simp only [lexInt, if_neg h0, hd, if_true, Prod.mk.injEq,
          Option.some.injEq] at h
        obtain ⟨rfl, rfl⟩ := h
        refine ⟨Or.inr ⟨c, r.takeWhile isDigitC, rfl, hd, h0, ?_⟩, ?_⟩
        · exact fun d hdm => List.mem_takeWhile_imp hdm
        · simp [List.takeWhile_append_dropWhile]
      · simp only [lexInt, if_neg h0] at h
        rw [if_neg hd] at h
        exact absurd h (by simp)

theorem lexFrac_inv (cs fp rest : List Char) (h : lexFrac cs = (fp, rest)) :
    (fp = [] ∧ rest = cs) ∨
    (∃ ds, fp = '.' :: ds ∧ ds ≠ [] ∧ digitsOnly ds ∧ cs = fp ++ rest) := by
  cases cs with
  | nil =>
    injection h with h1 h2
    exact Or.inl ⟨h1.symm, h2.symm⟩
  | cons c r =>
    by_cases hc : c = '.'
    · subst hc
      rw [show lexFrac ('.' :: r) =
          (if r.takeWhile isDigitC = [] then (([] : List Char), '.' :: r)
           else ('.' :: r.takeWhile isDigitC, r.dropWhile isDigitC)) from rfl] at h
      by_cases hds : r.takeWhile isDigitC = []
      · rw [if_pos hds] at h
        injection h with h1 h2
        exact Or.inl ⟨h1.symm, h2.symm⟩
      · rw [if_neg hds] at h
        injection h with h1 h2
        subst h1
        subst h2
        refine Or.inr ⟨r.takeWhile isDigitC, rfl, hds, ?_, ?_⟩
        · exact fun d hdm => List.mem_takeWhile_imp hdm
        · simp [List.takeWhile_append_dropWhile]
    · have hstep : lexFrac (c :: r) = ([], c :: r) := by
        simp [lexFrac, hc]
      rw [hstep] at h
      injection h with h1 h2
      exact Or.inl ⟨h1.symm, h2.symm⟩

theorem lexExp_inv (cs : List Char) :
    ((lexExp cs).1 = [] ∧ (lexExp cs).2 = cs) ∨
    (∃ e ds, (e = 'e' ∨ e = 'E') ∧ ds ≠ [] ∧ digitsOnly ds ∧
      ((lexExp cs).1 = e :: ds ∨
        ∃ s, (s = '+' ∨ s = '-') ∧ (lexExp cs).1 = e :: s :: ds) ∧
      cs = (lexExp cs).1 ++ (lexExp cs).2) := by
  cases cs with
  | nil => exact Or.inl ⟨by trivial, by trivial⟩
  | cons e r =>
    by_cases he : (e = 'e' || e = 'E') = true
    · have he' : e = 'e' ∨ e = 'E' := by simpa using he
      cases r with
      | nil =>
        simp only [lexExp, he, if_true]
        exact Or.inl ⟨by trivial, by trivial⟩
      | cons s r2 =>
        by_cases hs : (s = '+' || s = '-') = true
        · have hs' : s = '+' ∨ s = '-' := by simpa using hs
          by_cases hds : r2.takeWhile isDigitC = []
          · simp only [lexExp, he, if_true, hs, hds]
            exact Or.inl ⟨by trivial, by trivial⟩
          · simp only [lexExp, he, if_true, hs, hds, if_false]
            refine Or.inr ⟨e, r2.takeWhile isDigitC, he', hds,
              (fun d hdm => List.mem_takeWhile_imp hdm),
              Or.inr ⟨s, hs', rfl⟩, ?_⟩
            simp [List.takeWhile_append_dropWhile]
        · have hs0 : (s = '+' || s = '-') = false := by simpa using hs
          by_cases hds : (s :: r2).takeWhile isDigitC = []
          · simp only [lexExp, he, if_true, hs0, Bool.false_eq_true, if_false, hds]
            exact Or.inl ⟨by trivial, by trivial⟩
          · simp only [lexExp, he, if_true, hs0, Bool.false_eq_true, if_false,
              hds]
            refine Or.inr ⟨e, (s :: r2).takeWhile isDigitC, he', hds,
              (fun d hdm => List.mem_takeWhile_imp hdm), Or.inl rfl, ?_⟩
            simp [List.takeWhile_append_dropWhile]
    · have he0 : (e = 'e' || e = 'E') = false := by simpa using he
      simp only [lexExp, he0, Bool.false_eq_true, if_false]
      exact Or.inl ⟨by trivial, by trivial⟩


theorem lexNum_sound (cs tok rest : List Char) (h : lexNum cs = some (tok, rest)) :
    NumShape tok ∧ cs = tok ++ rest := by
  have main : ∀ body toksgn, (toksgn = [] ∨ toksgn = ['-']) →
      (match lexInt body with
       | none => none
       | some (ip, cs2) =>
         some (toksgn ++ ip ++ (lexFrac cs2).1 ++ (lexExp (lexFrac cs2).2).1,
           (lexExp (lexFrac cs2).2).2)) = some (tok, rest) →
      NumShape tok ∧ toksgn ++ body = tok ++ rest := by
    intro body toksgn hsgn hbody
    cases hli : lexInt body with
    | none => rw [hli] at hbody; exact absurd hbody (by simp)
    | some p =>
      obtain ⟨ip, cs2⟩ := p
      obtain ⟨fp, cs3, hf⟩ : ∃ a b, lexFrac cs2 = (a, b) := ⟨_, _, rfl⟩
      obtain ⟨ep, cs4, he⟩ : ∃ a b, lexExp cs3 = (a, b) := ⟨_, _, rfl⟩
      rw [hli] at hbody
      simp only [hf, he, Prod.mk.injEq, Option.some.injEq] at hbody
      obtain ⟨htok, hrest⟩ := hbody
      obtain ⟨hip, hbodyeq⟩ := lexInt_inv body ip cs2 hli
      have hfshape : FracShape fp ∧ cs2 = fp ++ cs3 := by
        rcases lexFrac_inv cs2 fp cs3 hf with ⟨h1, h2⟩ | ⟨ds, h1, h2, h3, h4⟩
        · exact ⟨Or.inl h1, by rw [h1, h2]; simp⟩
        · exact ⟨Or.inr ⟨ds, h1, h2, h3⟩, h4⟩
      have hex := lexExp_inv cs3
      rw [he] at hex
      have heshape : ExpShape ep ∧ cs3 = ep ++ cs4 := by
        rcases hex with ⟨h1, h2⟩ | ⟨e, ds, h1, h2, h3, h4, h5⟩
        · simp only at h1 h2
          exact ⟨Or.inl h1, by rw [h1, h2]; simp⟩
        · exact ⟨Or.inr ⟨e, ds, h1, h2, h3, h4⟩, h5⟩
      constructor
      · exact htok ▸ ⟨toksgn, ip, fp, ep, hsgn, hip, hfshape.1, heshape.1, rfl⟩
      · rw [← htok, ← hrest, hbodyeq, hfshape.2, heshape.2]
        simp [List.append_assoc]
  by_cases hm : headIs cs '-' = true
  · obtain ⟨c, cs', rfl⟩ : ∃ c cs', cs = c :: cs' := by
      cases cs with
      | nil => exact absurd hm (by simp [headIs])
      | cons c cs' => exact ⟨c, cs', rfl⟩
    have hc : c = '-' := by simpa [headIs] using hm
    subst hc
    simp only [lexNum, headIs, decide_True, if_true, List.tail_cons] at h
    have := main cs' ['-'] (Or.inr rfl) h
    exact ⟨this.1, by rw [← this.2]; simp⟩
  · have hm0 : headIs cs '-' = false := by simpa using hm
    simp only [lexNum, hm0, Bool.false_eq_true, if_false] at h
    have := main cs [] (Or.inl rfl) h
    exact ⟨this.1, by rw [← this.2]; simp⟩

theorem checkNumB_iff (cs : List Char) :
    checkNumB cs = true ↔ lexNum cs = some (cs, []) := by
  unfold checkNumB
  cases h : lexNum cs with
  | none => simp
  | some p =>
    obtain ⟨tok, rest⟩ := p
    simp

theorem numShape_of_checkNumB (cs : List Char) (h : checkNumB cs = true) :
    NumShape cs :=
  (lexNum_sound cs cs [] ((checkNumB_iff cs).mp h)).1

theorem lexNum_extend (tok ext : List Char) (h : checkNumB tok = true)
    (hext : numStop ext) : lexNum (tok ++ ext) = some (tok, ext) := by
  obtain ⟨sgn, ip, fp, ep, hs, hip, hfp, hep, rfl⟩ := numShape_of_checkNumB tok h
  have := lexNum_assemble sgn ip fp ep ext hs hip hfp hep hext
  simpa [List.append_assoc] using this

theorem checkNumB_of_lexNum (cs tok rest : List Char)
    (h : lexNum cs = some (tok, rest)) : checkNumB tok = true := by
  rw [checkNumB_iff]
  obtain ⟨sgn, ip, fp, ep, hs, hip, hfp, hep, rfl⟩ := (lexNum_sound cs tok rest h).1
  have := lexNum_assemble sgn ip fp ep [] hs hip hfp hep trivial
  simpa [List.append_assoc] using this

theorem numShape_head (tok : List Char) (h : NumShape tok) :
    ∃ c tl, tok = c :: tl ∧ (c = '-' ∨ isDigitC c = true) := by
  obtain ⟨sgn, ip, fp, ep, hs, hip, _, _, rfl⟩ := h
  rcases hs with h | h <;> subst h
  · obtain ⟨c, tl, hip2, hc⟩ := intShape_head ip hip
    exact ⟨c, tl ++ fp ++ ep, by rw [hip2]; simp [List.append_assoc], Or.inr hc⟩
  · exact ⟨'-', ip ++ fp ++ ep, by simp [List.append_assoc], Or.inl rfl⟩

/-! ### Well-formedness: JSON-serialisable values -/

theorem toJsonList_jlToList : ∀ (l : JsonList), toJsonList (jlToList l) = l
  | .nil => rfl
  | .cons v tl => by simp [jlToList, toJsonList, toJsonList_jlToList tl]

theorem fAppend_nil (g : JsonFields) : fAppend .nil g = g := rfl

theorem hasKey_fAppend : ∀ (a : JsonFields) (b : JsonFields) (k : String),
    (fAppend a b).hasKey k = (a.hasKey k || b.hasKey k)
  | .nil, b, k => by simp [fAppend, JsonFields.hasKey]
  | .cons k' v' tl, b, k => by
    simp [fAppend, JsonFields.hasKey, hasKey_fAppend tl b k, Bool.or_assoc]

theorem fAppend_cons_assoc : ∀ (a : JsonFields) (k : String) (v : Json)
    (tl : JsonFields),
    fAppend a (.cons k v tl) = fAppend (fAppend a (.cons k v .nil)) tl
  | .nil, k, v, tl => by simp [fAppend]
  | .cons k' v' tl', k, v, tl => by
    simp [fAppend, fAppend_cons_assoc tl' k v tl]

theorem hasKey_false_of_nodup_fAppend : ∀ (a : JsonFields) (k : String)
    (v : Json) (tl : JsonFields),
    (fAppend a (.cons k v tl)).nodupKeys = true → a.hasKey k = false
  | .nil, _, _, _, _ => rfl
  | .cons k' v' tl', k, v, tl, h => by
    simp only [fAppend, JsonFields.nodupKeys, Bool.and_eq_true,
      Bool.not_eq_true'] at h
    have hrec := hasKey_false_of_nodup_fAppend tl' k v tl h.2
    simp only [JsonFields.hasKey, Bool.or_eq_false_iff]
    refine ⟨?_, hrec⟩
    by_contra hkk
    simp only [decide_eq_false_iff_not, not_not] at hkk
    subst hkk
    rw [hasKey_fAppend] at h
    simp [JsonFields.hasKey] at h

theorem nodup_fAppend_cons (a : JsonFields) (k : String) (v : Json)
    (tl : JsonFields)
    (h : (fAppend a (.cons k v tl)).nodupKeys = true) :
    a.hasKey k = false ∧
    (fAppend (fAppend a (.cons k v .nil)) tl).nodupKeys = true := by
  refine ⟨hasKey_false_of_nodup_fAppend a k v tl h, ?_⟩
  rw [← fAppend_cons_assoc]
  exact h

theorem insert_fresh_append : ∀ (a : JsonFields) (k : String) (v : Json),
    a.hasKey k = false → a.insert k v = fAppend a (.cons k v .nil)
  | .nil, k, v, _ => rfl
  | .cons k' v' tl, k, v, h => by
    simp only [JsonFields.hasKey, Bool.or_eq_false_iff] at h
    have hne : (k' = k) = False := by
      have := h.1
      simp only [decide_eq_false_iff_not] at this
      simp [this]
    simp [JsonFields.insert, fAppend, hne, insert_fresh_append tl k v h.2]

/-! ### Step lemmas for the value parser -/

theorem pv_obj (f : Nat) (rest : List Char) :
    parseValue (f + 1) ('\x7b' :: rest) =
      (if headIs (skipWs rest) '\x7d' then some (.obj .nil, (skipWs rest).tail)
       else parseMembers f (skipWs rest) .nil) := rfl

theorem pv_arr (f : Nat) (rest : List Char) :
    parseValue (f + 1) ('[' :: rest) =
      (if headIs (skipWs rest) ']' then some (.arr .nil, (skipWs rest).tail)
       else parseElems f (skipWs rest) []) := rfl

theorem pv_str (f : Nat) (rest : List Char) :
    parseValue (f + 1) ('"' :: rest) =
      (parseStrBody (rest.length + 1) rest).map
        (fun p => (.str (String.mk p.1), p.2)) := rfl

theorem pv_true (f : Nat) (rest : List Char) :
    parseValue (f + 1) ("true".data ++ rest) =
      some (.bool true, rest) := rfl

theorem pv_false (f : Nat) (rest : List Char) :
    parseValue (f + 1) ("false".data ++ rest) =
      some (.bool false, rest) := rfl

theorem pv_null (f : Nat) (rest : List Char) :
    parseValue (f + 1) ("null".data ++ rest) =
      some (.null, rest) := rfl

theorem pv_nan (f : Nat) (rest : List Char) :
    parseValue (f + 1) ('N' :: 'a' :: 'N' :: rest) =
      some (.num "NaN", rest) := rfl

theorem pv_inf (f : Nat) (rest : List Char) :
    parseValue (f + 1) ('I' :: 'n' :: 'f' :: 'i' :: 'n' :: 'i' :: 't' :: 'y' :: rest) =
      some (.num "Infinity", rest) := rfl

theorem pv_neginf (f : Nat) (rest : List Char) :
    parseValue (f + 1)
        ('-' :: 'I' :: 'n' :: 'f' :: 'i' :: 'n' :: 'i' :: 't' :: 'y' :: rest) =
      some (.num "-Infinity", rest) := rfl

theorem pv_num (f : Nat) (c : Char) (rest : List Char)
    (hws : isJsonWs c = false)
    (h1 : (c = '\x7b') = False) (h2 : (c = '[') = False) (h3 : (c = '"') = False)
    (h4 : startsWithL "true".data (c :: rest) = false)
    (h5 : startsWithL "false".data (c :: rest) = false)
    (h6 : startsWithL "null".data (c :: rest) = false)
    (h7 : startsWithL "NaN".data (c :: rest) = false)
    (h8 : startsWithL "Infinity".data (c :: rest) = false)
    (h9 : startsWithL "-Infinity".data (c :: rest) = false) :
    parseValue (f + 1) (c :: rest) =
      (lexNum (c :: rest)).map (fun p => (.num (String.mk p.1), p.2)) := by
  have h0 : skipWs (c :: rest) = c :: rest :=
    skipWs_headNone _ (by simpa [headNone] using hws)
  simp only [parseValue, h0]
  rw [if_neg (by simp [h1]), if_neg (by simp [h2]), if_neg (by simp [h3]),
    if_neg (by simp [h4]), if_neg (by simp [h5]), if_neg (by simp [h6]),
    if_neg (by simp [h7]), if_neg (by simp [h8]), if_neg (by simp [h9])]

theorem parseValue_ws (fuel : Nat) (ws cs : List Char)
    (h : ∀ c ∈ ws, isJsonWs c = true) :
    parseValue fuel (ws ++ cs) = parseValue fuel cs := by
  cases fuel with
  | zero => rfl
  | succ f => simp only [parseValue, skipWs_ws_append ws cs h]

theorem parseElems_succ (f : Nat) (cs : List Char) (acc : List Json) :
    parseElems (f + 1) cs acc =
      (match parseValue f cs with
       | none => none
       | some (v, rest) =>
         if headIs (skipWs rest) ',' then
           parseElems f (skipWs rest).tail (acc ++ [v])
         else if headIs (skipWs rest) ']' then
           some (.arr (toJsonList (acc ++ [v])), (skipWs rest).tail)
         else none) := rfl

theorem parseMembers_succ (f : Nat) (cs : List Char) (acc : JsonFields) :
    parseMembers (f + 1) cs acc =
      (match cs with
       | '"' :: rest =>
         match parseStrBody (rest.length + 1) rest with
         | none => none
         | some (key, rest2) =>
           if headIs (skipWs rest2) ':' then
             match parseValue f (skipWs rest2).tail with
             | none => none
             | some (v, rest4) =>
               if headIs (skipWs rest4) ',' then
                 parseMembers f (skipWs (skipWs rest4).tail)
                   (acc.insert (String.mk key) v)
               else if headIs (skipWs rest4) '\x7d' then
                 some (.obj (acc.insert (String.mk key) v), (skipWs rest4).tail)
               else none
           else none
       | _ => none) := rfl

theorem digit_ne (c d : Char) (h : isDigitC c = true) (hd : isDigitC d = false) :
    (c = d) = False := by
  simp only [eq_iff_iff, iff_false]
  intro heq
  subst heq
  rw [h] at hd
  exact absurd hd (by simp)

theorem digit_not_ws (c : Char) (h : isDigitC c = true) : isJsonWs c = false := by
  simp [isJsonWs, digit_ne c ' ' h (by decide), digit_ne c '\t' h (by decide),
    digit_ne c '\n' h (by decide), digit_ne c '\x0d' h (by decide)]

/-- The serialisation of a well-formed value starts with a
non-whitespace character that is not a closing bracket. -/
theorem emit_head (ind : Nat) (v : Json) (hwf : WFj v = true) :
    ∃ c tl, emitJson ind v = c :: tl ∧ isJsonWs c = false ∧
      (c = ']') = False ∧ (c = '\x7d') = False := by
  cases v with
  | null => exact ⟨_, _, rfl, (by decide), (by decide), (by decide)⟩
  | bool b =>
    cases b with
    | true => exact ⟨_, _, rfl, (by decide), (by decide), (by decide)⟩
    | false => exact ⟨_, _, rfl, (by decide), (by decide), (by decide)⟩
  | str s => exact ⟨_, _, rfl, (by decide), (by decide), (by decide)⟩
  | num raw =>
    simp only [WFj, Bool.or_eq_true, decide_eq_true_eq] at hwf
    rcases hwf with ((hnum | hc) | hc) | hc
    · obtain ⟨c, tl, heq, hc⟩ := numShape_head raw.data (numShape_of_checkNumB _ hnum)
      refine ⟨c, tl, by simp [emitJson, heq], ?_, ?_, ?_⟩
      · rcases hc with h | h
        · subst h; decide
        · exact digit_not_ws c h
      · rcases hc with h | h
        · subst h; decide
        · exact digit_ne c ']' h (by decide)
      · rcases hc with h | h
        · subst h; decide
        · exact digit_ne c '\x7d' h (by decide)
    · subst hc; exact ⟨_, _, rfl, (by decide), (by decide), (by decide)⟩
    · subst hc; exact ⟨_, _, rfl, (by decide), (by decide), (by decide)⟩
    · subst hc; exact ⟨_, _, rfl, (by decide), (by decide), (by decide)⟩
  | arr xs =>
    cases xs with
    | nil => exact ⟨_, _, rfl, (by decide), (by decide), (by decide)⟩
    | cons x tl => exact ⟨_, _, rfl, (by decide), (by decide), (by decide)⟩
  | obj fs =>
    cases fs with
    | nil => exact ⟨_, _, rfl, (by decide), (by decide), (by decide)⟩
    | cons k v tl => exact ⟨_, _, rfl, (by decide), (by decide), (by decide)⟩

theorem nlIndent_all_ws (n : Nat) : ∀ c ∈ nlIndent n, isJsonWs c = true := by
  intro c hc
  simp only [nlIndent, List.mem_cons, List.mem_replicate] at hc
  rcases hc with h | h
  · subst h; decide
  · rw [h.2]; decide

theorem stringMk_data (s : String) : String.mk s.data = s := rfl

theorem parseElems_ws (fuel : Nat) (ws cs : List Char) (acc : List Json)
    (h : ∀ c ∈ ws, isJsonWs c = true) :
    parseElems fuel (ws ++ cs) acc = parseElems fuel cs acc := by
  cases fuel with
  | zero => rfl
  | succ f => rw [parseElems_succ, parseElems_succ, parseValue_ws f ws cs h]

theorem startsWithL_head_false (p c : Char) (ps cs : List Char)
    (h : (p = c) = False) : startsWithL (p :: ps) (c :: cs) = false := by
  simp [startsWithL, h]

theorem digit_ne' (c d : Char) (h : isDigitC c = true) (hd : isDigitC d = false) :
    (d = c) = False := by
  simp only [eq_iff_iff, iff_false]
  intro heq
  subst heq
  rw [h] at hd
  exact absurd hd (by simp)

/-- Round trip for serialised number values. -/
theorem rt_value_num (raw : String) (ind f : Nat) (rest : List Char)
    (hwf : WFj (.num raw) = true) (hstop : numStop rest) :
    parseValue (f + 1) (emitJson ind (.num raw) ++ rest) = some (.num raw, rest) := by
  simp only [WFj, Bool.or_eq_true, decide_eq_true_eq] at hwf
  rcases hwf with ((hnum | hc) | hc) | hc
  · obtain ⟨sgn, ip, fp, ep, hs, hip, hfp, hep, hdataeq⟩ :=
      numShape_of_checkNumB _ hnum
    obtain ⟨d, dtl, hip2, hd⟩ := intShape_head ip hip
    have hlex : lexNum (raw.data ++ rest) = some (raw.data, rest) :=
      lexNum_extend raw.data rest hnum hstop
    rcases hs with hsn | hsn <;> subst hsn
    · have hform : emitJson ind (.num raw) ++ rest =
          d :: (dtl ++ fp ++ ep ++ rest) := by
        simp only [emitJson, hdataeq, hip2, List.nil_append, List.cons_append,
          List.append_assoc]
      rw [hform]
      rw [pv_num f d (dtl ++ fp ++ ep ++ rest) (digit_not_ws d hd)
        (digit_ne d '\x7b' hd (by decide)) (digit_ne d '[' hd (by decide))
        (digit_ne d '"' hd (by decide))
        (startsWithL_head_false 't' d _ _ (digit_ne' d 't' hd (by decide)))
        (startsWithL_head_false 'f' d _ _ (digit_ne' d 'f' hd (by decide)))
        (startsWithL_head_false 'n' d _ _ (digit_ne' d 'n' hd (by decide)))
        (startsWithL_head_false 'N' d _ _ (digit_ne' d 'N' hd (by decide)))
        (startsWithL_head_false 'I' d _ _ (digit_ne' d 'I' hd (by decide)))
        (startsWithL_head_false '-' d _ _ (digit_ne' d '-' hd (by decide)))]
      rw [← hform]
      simp only [emitJson]
      rw [hlex]
      simp [stringMk_data]
    · have hform : emitJson ind (.num raw) ++ rest =
          '-' :: (d :: (dtl ++ fp ++ ep ++ rest)) := by
        simp only [emitJson, hdataeq, hip2, List.cons_append, List.nil_append,
          List.append_assoc]
      rw [hform]
      have h9 : startsWithL "-Infinity".data ('-' :: d :: (dtl ++ fp ++ ep ++ rest)) =
          false := by
        have : ('I' = d) = False := digit_ne' d 'I' hd (by decide)
        simp [startsWithL, this]
      rw [pv_num f '-' (d :: (dtl ++ fp ++ ep ++ rest)) (by decide)
        (by decide) (by decide) (by decide)
        (startsWithL_head_false 't' '-' _ _ (by decide))
        (startsWithL_head_false 'f' '-' _ _ (by decide))
        (startsWithL_head_false 'n' '-' _ _ (by decide))
        (startsWithL_head_false 'N' '-' _ _ (by decide))
        (startsWithL_head_false 'I' '-' _ _ (by decide))
        h9]
      rw [← hform]
      simp only [emitJson]
      rw [hlex]
      simp [stringMk_data]
  · subst hc
    simpa [emitJson] using pv_nan f rest
  · subst hc
    simpa [emitJson] using pv_inf f rest
  · subst hc
    simpa [emitJson] using pv_neginf f rest

/-- Round trip for serialised string values. -/
theorem rt_value_str (s : String) (ind f : Nat) (rest : List Char) :
    parseValue (f + 1) (emitJson ind (.str s) ++ rest) = some (.str s, rest) := by
  have hform : emitJson ind (.str s) ++ rest =
      '"' :: (escapeL s.data ++ '"' :: rest) := by
    simp [emitJson, escapeString_eq, List.append_assoc]
  rw [hform, pv_str]
  rw [parseStrBody_escape s.data ((escapeL s.data ++ '"' :: rest).length + 1) rest
    (by simp [List.length_append])]
  simp [stringMk_data]

theorem headNone_ws_of_cons (c : Char) (cs : List Char) (h : isJsonWs c = false) :
    headNone isJsonWs (c :: cs) := h

theorem skipWs_cons_not (c : Char) (cs : List Char) (h : isJsonWs c = false) :
    skipWs (c :: cs) = c :: cs :=
  skipWs_headNone _ (headNone_ws_of_cons c cs h)

theorem parseMembers_quote (f : Nat) (rest : List Char) (acc : JsonFields) :
    parseMembers (f + 1) ('"' :: rest) acc =
      (match parseStrBody (rest.length + 1) rest with
       | none => none
       | some (key, rest2) =>
         if headIs (skipWs rest2) ':' then
           match parseValue f (skipWs rest2).tail with
           | none => none
           | some (v, rest4) =>
             if headIs (skipWs rest4) ',' then
               parseMembers f (skipWs (skipWs rest4).tail)
                 (acc.insert (String.mk key) v)
             else if headIs (skipWs rest4) '\x7d' then
               some (.obj (acc.insert (String.mk key) v), (skipWs rest4).tail)
             else none
         else none) := rfl

theorem jfuel_pos (v : Json) : 1 ≤ jfuel v := by
  cases v with
  | arr xs => cases xs <;> simp [jfuel]
  | obj fs => cases fs <;> simp [jfuel]
  | null => simp [jfuel]
  | bool b => simp [jfuel]
  | num raw => simp [jfuel]
  | str s => simp [jfuel]

mutual
/-- Round trip: parsing the serialisation of a well-formed value,
followed by anything a serialised context can put after it, returns
exactly that value. -/
theorem rt_value : ∀ (v : Json) (ind fuel : Nat) (rest : List Char),
    WFj v = true → jfuel v ≤ fuel → numStop rest →
    parseValue fuel (emitJson ind v ++ rest) = some (v, rest)
  | v, ind, fuel, rest, hwf, hfuel, hstop => by
    obtain ⟨f, rfl⟩ : ∃ g, fuel = g + 1 :=
      ⟨fuel - 1, by have := jfuel_pos v; omega⟩
    cases v with
    | null => simpa [emitJson] using pv_null f rest
    | bool b =>
      cases b with
      | true => simpa [emitJson] using pv_true f rest
      | false => simpa [emitJson] using pv_false f rest
    | num raw => exact rt_value_num raw ind f rest hwf hstop
    | str s => exact rt_value_str s ind f rest
    | arr xs =>
      cases xs with
      | nil =>
        have hform : emitJson ind (.arr .nil) ++ rest = '[' :: ']' :: rest := by
          simp [emitJson]
        rw [hform, pv_arr, skipWs_cons_not ']' rest (by decide)]
        simp [headIs]
      | cons x tl =>
        simp only [WFj, WFl, Bool.and_eq_true] at hwf
        obtain ⟨hx, htl⟩ := hwf
        have hfl : jlfuel (.cons x tl) ≤ f := by
          simp only [jfuel] at hfuel
          omega
        obtain ⟨c, ctl, hemit, hcws, hcbr, _⟩ := emit_head (ind + 1) x hx
        have hform : emitJson ind (.arr (.cons x tl)) ++ rest =
            '[' :: (nlIndent (ind + 1) ++ (emitJson (ind + 1) x ++
              (emitArrTail (ind + 1) tl ++ (nlIndent ind ++ ']' :: rest)))) := by
          simp [emitJson, List.append_assoc]
        rw [hform, pv_arr, skipWs_nlIndent, hemit, List.cons_append,
          skipWs_cons_not c _ hcws]
        rw [if_neg (by simp [headIs, hcbr])]
        rw [← List.cons_append, ← hemit]
        rw [rt_elems tl x [] (ind + 1) ind f rest hx htl hfl]
        simp [toJsonList, toJsonList_jlToList]
    | obj fs =>
      cases fs with
      | nil =>
        have hform : emitJson ind (.obj .nil) ++ rest = '\x7b' :: '\x7d' :: rest := by
          simp [emitJson]
        rw [hform, pv_obj, skipWs_cons_not '\x7d' rest (by decide)]
        simp [headIs]
      | cons k v tl =>
        simp only [WFj, WFf, Bool.and_eq_true] at hwf
        obtain ⟨hnd, hv, htl⟩ := hwf
        have hfl : jffuel (.cons k v tl) ≤ f := by
          simp only [jfuel] at hfuel
          omega
        have hform : emitJson ind (.obj (.cons k v tl)) ++ rest =
            '\x7b' :: (nlIndent (ind + 1) ++ (emitMember (ind + 1) k v ++
              (emitObjTail (ind + 1) tl ++ (nlIndent ind ++ '\x7d' :: rest)))) := by
          simp [emitJson, emitMember, List.append_assoc]
        rw [hform, pv_obj, skipWs_nlIndent]
        rw [show emitMember (ind + 1) k v ++
            (emitObjTail (ind + 1) tl ++ (nlIndent ind ++ '\x7d' :: rest)) =
            '"' :: (escapeL k.data ++ ['"', ':', ' '] ++ emitJson (ind + 1) v ++
              (emitObjTail (ind + 1) tl ++ (nlIndent ind ++ '\x7d' :: rest)))
          from by simp [emitMember, escapeString_eq, List.append_assoc]]
        rw [skipWs_cons_not '"' _ (by decide)]
        rw [if_neg (by simp [headIs])]
        rw [show ('"' :: (escapeL k.data ++ ['"', ':', ' '] ++ emitJson (ind + 1) v ++
              (emitObjTail (ind + 1) tl ++ (nlIndent ind ++ '\x7d' :: rest)))) =
            emitMember (ind + 1) k v ++
              (emitObjTail (ind + 1) tl ++ (nlIndent ind ++ '\x7d' :: rest))
          from by simp [emitMember, escapeString_eq, List.append_assoc]]
        rw [rt_members tl k v .nil (ind + 1) ind f rest hv htl
          (by simpa [fAppend] using hnd) hfl]
        simp [fAppend]
termination_by v ind fuel rest hwf hfuel hstop => sizeOf v
decreasing_by all_goals (subst_vars; simp_arith)

theorem rt_elems : ∀ (tl : JsonList) (x : Json) (acc : List Json)
    (ind2 indc fuel : Nat) (rest : List Char),
    WFj x = true → WFl tl = true → jlfuel (.cons x tl) ≤ fuel →
    parseElems fuel
      (emitJson ind2 x ++ (emitArrTail ind2 tl ++ (nlIndent indc ++ ']' :: rest)))
      acc =
      some (.arr (toJsonList (acc ++ x :: jlToList tl)), rest)
  | tl, x, acc, ind2, indc, fuel, rest, hx, htl, hfuel => by
    obtain ⟨f, rfl⟩ : ∃ g, fuel = g + 1 :=
      ⟨fuel - 1, by simp only [jlfuel] at hfuel; omega⟩
    rw [parseElems_succ]
    have hstop : numStop (emitArrTail ind2 tl ++ (nlIndent indc ++ ']' :: rest)) := by
      cases tl with
      | nil => simp [emitArrTail, nlIndent, numStop, numStopChar]
      | cons x' tl' => simp [emitArrTail, numStop, numStopChar]
    rw [rt_value x ind2 f _ hx (by simp only [jlfuel] at hfuel; omega) hstop]
    dsimp only
    cases tl with
    | nil =>
      rw [show emitArrTail ind2 .nil ++ (nlIndent indc ++ ']' :: rest) =
          nlIndent indc ++ ']' :: rest from by simp [emitArrTail]]
      rw [skipWs_nlIndent, skipWs_cons_not ']' rest (by decide)]
      rw [if_neg (by simp [headIs]), if_pos (by simp [headIs])]
      simp [jlToList]
    | cons x' tl' =>
      simp only [WFl, Bool.and_eq_true] at htl
      rw [show emitArrTail ind2 (.cons x' tl') ++ (nlIndent indc ++ ']' :: rest) =
          ',' :: (nlIndent ind2 ++ (emitJson ind2 x' ++ (emitArrTail ind2 tl' ++
            (nlIndent indc ++ ']' :: rest)))) from by
        simp [emitArrTail, List.append_assoc]]
      rw [skipWs_cons_not ',' _ (by decide)]
      rw [if_pos (by simp [headIs])]
      rw [show (',' :: (nlIndent ind2 ++ (emitJson ind2 x' ++ (emitArrTail ind2 tl' ++
            (nlIndent indc ++ ']' :: rest))))).tail =
          nlIndent ind2 ++ (emitJson ind2 x' ++ (emitArrTail ind2 tl' ++
            (nlIndent indc ++ ']' :: rest))) from rfl]
      rw [parseElems_ws f (nlIndent ind2) _ (acc ++ [x]) (nlIndent_all_ws ind2)]
      rw [rt_elems tl' x' (acc ++ [x]) ind2 indc f rest htl.1 htl.2
        (by simp only [jlfuel] at hfuel ⊢; omega)]
      simp [jlToList, List.append_assoc]
termination_by tl x acc ind2 indc fuel rest hx htl hfuel => 1 + sizeOf x + sizeOf tl
decreasing_by all_goals (subst_vars; simp_arith)

theorem rt_members : ∀ (tl : JsonFields) (k : String) (v : Json)
    (acc : JsonFields) (ind2 indc fuel : Nat) (rest : List Char),
    WFj v = true → WFf tl = true →
    (fAppend acc (.cons k v tl)).nodupKeys = true →
    jffuel (.cons k v tl) ≤ fuel →
    parseMembers fuel
      (emitMember ind2 k v ++ (emitObjTail ind2 tl ++ (nlIndent indc ++ '\x7d' :: rest)))
      acc =
      some (.obj (fAppend acc (.cons k v tl)), rest)
  | tl, k, v, acc, ind2, indc, fuel, rest, hv, htl, hnd, hfuel => by
    obtain ⟨f, rfl⟩ : ∃ g, fuel = g + 1 :=
      ⟨fuel - 1, by simp only [jffuel] at hfuel; omega⟩
    obtain ⟨hfresh, hnd2⟩ := nodup_fAppend_cons acc k v tl hnd
    rw [show emitMember ind2 k v ++
        (emitObjTail ind2 tl ++ (nlIndent indc ++ '\x7d' :: rest)) =
        '"' :: (escapeL k.data ++ '"' :: (':' :: ' ' :: (emitJson ind2 v ++
          (emitObjTail ind2 tl ++ (nlIndent indc ++ '\x7d' :: rest)))))
      from by simp [emitMember, escapeString_eq, List.append_assoc]]
    rw [parseMembers_quote]
    rw [parseStrBody_escape k.data _ _ (by simp [List.length_append])]
    dsimp only
    rw [skipWs_cons_not ':' _ (by decide)]
    rw [if_pos (by simp [headIs])]
    rw [show (':' :: ' ' :: (emitJson ind2 v ++
        (emitObjTail ind2 tl ++ (nlIndent indc ++ '\x7d' :: rest)))).tail =
        [' '] ++ (emitJson ind2 v ++
          (emitObjTail ind2 tl ++ (nlIndent indc ++ '\x7d' :: rest))) from rfl]
    rw [parseValue_ws f [' '] _ (by intro c hc; simp at hc; subst hc; decide)]
    have hstop : numStop (emitObjTail ind2 tl ++ (nlIndent indc ++ '\x7d' :: rest)) := by
      cases tl with
      | nil => simp [emitObjTail, nlIndent, numStop, numStopChar]
      | cons k' v' tl' => simp [emitObjTail, numStop, numStopChar]
    rw [rt_value v ind2 f _ hv (by simp only [jffuel] at hfuel; omega) hstop]
    dsimp only
    rw [stringMk_data, insert_fresh_append acc k v hfresh]
    cases tl with
    | nil =>
      rw [show emitObjTail ind2 .nil ++ (nlIndent indc ++ '\x7d' :: rest) =
          nlIndent indc ++ '\x7d' :: rest from by simp [emitObjTail]]
      rw [skipWs_nlIndent, skipWs_cons_not '\x7d' rest (by decide)]
      rw [if_neg (by simp [headIs]), if_pos (by simp [headIs])]
      rfl
    | cons k' v' tl' =>
      simp only [WFf, Bool.and_eq_true] at htl
      rw [show emitObjTail ind2 (.cons k' v' tl') ++ (nlIndent indc ++ '\x7d' :: rest) =
          ',' :: (nlIndent ind2 ++ (emitMember ind2 k' v' ++ (emitObjTail ind2 tl' ++
            (nlIndent indc ++ '\x7d' :: rest)))) from by
        simp [emitObjTail, emitMember, List.append_assoc]]
      rw [skipWs_cons_not ',' _ (by decide)]
      rw [if_pos (by simp [headIs])]
      rw [show (',' :: (nlIndent ind2 ++ (emitMember ind2 k' v' ++
            (emitObjTail ind2 tl' ++ (nlIndent indc ++ '\x7d' :: rest))))).tail =
          nlIndent ind2 ++ (emitMember ind2 k' v' ++ (emitObjTail ind2 tl' ++
            (nlIndent indc ++ '\x7d' :: rest))) from rfl]
      rw [skipWs_nlIndent]
      rw [show emitMember ind2 k' v' = '"' :: (escapeL k'.data ++ ['"', ':', ' '] ++
          emitJson ind2 v') from by simp [emitMember, escapeString_eq]]
      rw [List.cons_append, skipWs_cons_not '"' _ (by decide)]
      rw [← List.cons_append]
      rw [show ('"' :: (escapeL k'.data ++ ['"', ':', ' '] ++ emitJson ind2 v')) =
          emitMember ind2 k' v' from by simp [emitMember, escapeString_eq]]
      rw [rt_members tl' k' v' (fAppend acc (.cons k v .nil)) ind2 indc f rest
        htl.1 htl.2 hnd2 (by simp only [jffuel] at hfuel ⊢; omega)]
      rw [← fAppend_cons_assoc]
termination_by tl k v acc ind2 indc fuel rest hv htl hnd hfuel => 1 + sizeOf v + sizeOf tl
decreasing_by all_goals (subst_vars; simp_arith)
end


theorem nlIndent_length (ind : Nat) : (nlIndent ind).length = 1 + 2 * ind := by
  induction ind with
  | zero => rfl
  | succ n ih => simp [nlIndent, List.length_append] at ih ⊢; omega

mutual
theorem jfuel_le_emit : ∀ (v : Json) (ind : Nat),
    jfuel v ≤ (emitJson ind v).length + 1
  | v, ind => by
    cases v with
    | null => simp [jfuel, emitJson]
    | bool b => cases b <;> simp [jfuel, emitJson]
    | num raw => simp [jfuel, emitJson]
    | str s => simp [jfuel, emitJson]
    | arr xs =>
      cases xs with
      | nil => simp [jfuel, emitJson]
      | cons x tl =>
        have h1 := jfuel_le_emit x (ind + 1)
        have h2 := jlfuel_le_emit tl (ind + 1)
        have h3 := nlIndent_length (ind + 1)
        have h4 := nlIndent_length ind
        simp only [jfuel, jlfuel, emitJson, List.length_append, List.length_cons] at *
        omega
    | obj fs =>
      cases fs with
      | nil => simp [jfuel, emitJson]
      | cons k v tl =>
        have h1 := jfuel_le_emit v (ind + 1)
        have h2 := jffuel_le_emit tl (ind + 1)
        have h3 := nlIndent_length (ind + 1)
        have h4 := nlIndent_length ind
        simp only [jfuel, jffuel, emitJson, List.length_append, List.length_cons] at *
        omega
termination_by v ind => sizeOf v

theorem jlfuel_le_emit : ∀ (tl : JsonList) (ind : Nat),
    jlfuel tl ≤ (emitArrTail ind tl).length + 1
  | tl, ind => by
    cases tl with
    | nil => simp [jlfuel, emitArrTail]
    | cons x tl =>
      have h1 := jfuel_le_emit x ind
      have h2 := jlfuel_le_emit tl ind
      have h3 := nlIndent_length ind
      simp only [jlfuel, emitArrTail, List.length_append, List.length_cons] at *
      omega
termination_by tl ind => sizeOf tl

theorem jffuel_le_emit : ∀ (tl : JsonFields) (ind : Nat),
    jffuel tl ≤ (emitObjTail ind tl).length + 1
  | tl, ind => by
    cases tl with
    | nil => simp [jffuel, emitObjTail]
    | cons k v tl =>
      have h1 := jfuel_le_emit v ind
      have h2 := jffuel_le_emit tl ind
      have h3 := nlIndent_length ind
      simp only [jffuel, emitObjTail, List.length_append, List.length_cons] at *
      omega
termination_by tl ind => sizeOf tl
end

/-- `json.loads (json.dumps v)` returns `v` for every well-formed value. -/
theorem parse_dumps (v : Json) (h : WFj v = true) :
    parseJson (jsonDumps v) = some v := by
  have hb := jfuel_le_emit v 0
  have hrt := rt_value v 0 ((emitJson 0 v).length + 1) [] h (by omega) trivial
  rw [show emitJson 0 v ++ ([] : List Char) = emitJson 0 v from by simp] at hrt
  show (match parseValue ((jsonDumps v).data.length + 1) (jsonDumps v).data with
    | none => none
    | some (w, rest) => if skipWs rest = [] then some w else none) = some v
  rw [show (jsonDumps v).data = emitJson 0 v from rfl, hrt]
  simp [skipWs]

theorem insert_hasKey : ∀ (fs : JsonFields) (key q : String) (v : Json),
    (fs.insert key v).hasKey q = (fs.hasKey q || decide (key = q))
  | .nil, key, q, v => by simp [JsonFields.insert, JsonFields.hasKey]
  | .cons k w tl, key, q, v => by
    by_cases h : k = key
    · subst h
      by_cases hq : k = q <;>
        simp [JsonFields.insert, JsonFields.hasKey, hq]
    · simp [JsonFields.insert, h, JsonFields.hasKey, insert_hasKey tl key q v,
        Bool.or_assoc]

theorem insert_nodup : ∀ (fs : JsonFields) (key : String) (v : Json),
    fs.nodupKeys = true → (fs.insert key v).nodupKeys = true
  | .nil, key, v, _ => by
    simp [JsonFields.insert, JsonFields.nodupKeys, JsonFields.hasKey]
  | .cons k w tl, key, v, h => by
    simp only [JsonFields.nodupKeys, Bool.and_eq_true, Bool.not_eq_true'] at h
    by_cases hk : k = key
    · subst hk
      simp [JsonFields.insert, JsonFields.nodupKeys, h.1, h.2]
    · simp only [JsonFields.insert, if_neg hk, JsonFields.nodupKeys,
        Bool.and_eq_true, Bool.not_eq_true']
      refine ⟨?_, insert_nodup tl key v h.2⟩
      rw [insert_hasKey]
      simp only [h.1, Bool.false_or, decide_eq_false_iff_not]
      exact fun hkq => hk hkq.symm

theorem insert_WFf : ∀ (fs : JsonFields) (key : String) (v : Json),
    WFf fs = true → WFj v = true → WFf (fs.insert key v) = true
  | .nil, key, v, _, hv => by simp [JsonFields.insert, WFf, hv]
  | .cons k w tl, key, v, h, hv => by
    simp only [WFf, Bool.and_eq_true] at h
    by_cases hk : k = key
    · subst hk
      simp [JsonFields.insert, WFf, hv, h.2]
    · simp only [JsonFields.insert, if_neg hk, WFf, Bool.and_eq_true]
      exact ⟨h.1, insert_WFf tl key v h.2 hv⟩

theorem WFl_toJsonList : ∀ (l : List Json),
    (∀ x ∈ l, WFj x = true) → WFl (toJsonList l) = true
  | [], _ => rfl
  | v :: tl, h => by
    simp only [toJsonList, WFl, Bool.and_eq_true]
    exact ⟨h v (by simp), WFl_toJsonList tl (fun x hx => h x (by simp [hx]))⟩

theorem parse_WF (fuel : Nat) :
    (∀ cs v rst, parseValue fuel cs = some (v, rst) → WFj v = true) ∧
    (∀ cs acc v rst, WFf acc = true → acc.nodupKeys = true →
      parseMembers fuel cs acc = some (v, rst) → WFj v = true) ∧
    (∀ cs acc v rst, (∀ x ∈ acc, WFj x = true) →
      parseElems fuel cs acc = some (v, rst) → WFj v = true) := by
  induction fuel with
  | zero =>
    refine ⟨?_, ?_, ?_⟩
    · intro cs v rst h
      simp [parseValue] at h
    · intro cs acc v rst _ _ h
      simp [parseMembers] at h
    · intro cs acc v rst _ h
      simp [parseElems] at h
  | succ f ih =>
    obtain ⟨ihv, ihm, ihe⟩ := ih
    refine ⟨?_, ?_, ?_⟩
    · intro cs v rst h
      rw [parseValue] at h
      split at h
      · exact Option.noConfusion h
      · rename_i c r heq
        dsimp only at h
        split at h
        · -- object
          split at h
          · obtain ⟨rfl, rfl⟩ := somePair_inj h
            rfl
          · exact ihm _ .nil _ _ rfl rfl h
        · split at h
          · -- array
            split at h
            · obtain ⟨rfl, rfl⟩ := somePair_inj h
              rfl
            · exact ihe _ [] _ _ (by simp) h
          · split at h
            · -- string
              cases hps : parseStrBody (r.length + 1) r with
              | none =>
                rw [hps] at h
                exact Option.noConfusion h
              | some p =>
                rw [hps] at h
                obtain ⟨rfl, rfl⟩ := somePair_inj h
                rfl
            · split at h
              · obtain ⟨rfl, rfl⟩ := somePair_inj h
                rfl
              · split at h
                · obtain ⟨rfl, rfl⟩ := somePair_inj h
                  rfl
                · split at h
                  · obtain ⟨rfl, rfl⟩ := somePair_inj h
                    rfl
                  · split at h
                    · obtain ⟨rfl, rfl⟩ := somePair_inj h
                      rfl
                    · split at h
                      · obtain ⟨rfl, rfl⟩ := somePair_inj h
                        rfl
                      · split at h
                        · obtain ⟨rfl, rfl⟩ := somePair_inj h
                          rfl
                        · -- number
                          cases hlex : lexNum (c :: r) with
                          | none =>
                            rw [hlex] at h
                            exact Option.noConfusion h
                          | some p =>
                            rw [hlex] at h
                            obtain ⟨rfl, rfl⟩ := somePair_inj h
                            simp only [WFj, Bool.or_eq_true]
                            exact Or.inl (Or.inl (Or.inl
                              (checkNumB_of_lexNum (c :: r) p.1 p.2
                                (by rw [hlex]))))
    · intro cs acc v rst hwf hnd h
      rw [parseMembers_succ] at h
      split at h
      all_goals try exact Option.noConfusion h
      split at h
      all_goals try exact Option.noConfusion h
      try dsimp only at h
      split at h
      all_goals try exact Option.noConfusion h
      split at h
      all_goals try exact Option.noConfusion h
      rename_i v0 rest4 hpv
      have hv0 := ihv _ _ _ hpv
      try dsimp only at h
      split at h
      · exact ihm _ _ _ _ (insert_WFf _ _ _ hwf hv0) (insert_nodup _ _ _ hnd) h
      · split at h
        · obtain ⟨rfl, rfl⟩ := somePair_inj h
          simp only [WFj, Bool.and_eq_true]
          exact ⟨insert_nodup _ _ _ hnd, insert_WFf _ _ _ hwf hv0⟩
        · exact Option.noConfusion h
    · intro cs acc v rst hacc h
      rw [parseElems_succ] at h
      split at h
      all_goals try exact Option.noConfusion h
      rename_i v0 rest0 hpv
      have hv0 := ihv _ _ _ hpv
      try dsimp only at h
      split at h
      · refine ihe _ _ _ _ ?_ h
        intro x hx
        rcases List.mem_append.mp hx with hx | hx
        · exact hacc x hx
        · simp at hx
          subst hx
          exact hv0
      · split at h
        · obtain ⟨rfl, rfl⟩ := somePair_inj h
          simp only [WFj]
          refine WFl_toJsonList _ ?_
          intro x hx
          rcases List.mem_append.mp hx with hx | hx
          · exact hacc x hx
          · simp at hx
            subst hx
            exact hv0
        · exact Option.noConfusion h

theorem startsWithL_self_append : ∀ (n b : List Char), startsWithL n (n ++ b) = true
  | [], _ => rfl
  | c :: cs, b => by simp [startsWithL, startsWithL_self_append cs b]

theorem containsL_cons (n : List Char) (c : Char) (cs : List Char)
    (h : containsL n cs = true) : containsL n (c :: cs) = true := by
  simp [containsL, h]

theorem containsL_self_append (n b : List Char) : containsL n (n ++ b) = true := by
  cases hn : n ++ b with
  | nil =>
    have : n = [] := by
      cases n with
      | nil => rfl
      | cons c cs => simp at hn
    subst this
    rfl
  | cons c cs =>
    rw [containsL, ← hn, startsWithL_self_append]
    rfl

theorem containsL_append_left : ∀ (a n hay : List Char),
    containsL n hay = true → containsL n (a ++ hay) = true
  | [], _, _, h => h
  | c :: a, n, hay, h => by
    rw [List.cons_append]
    exact containsL_cons _ _ _ (containsL_append_left a n hay h)

theorem containsSub_embedded (a mid b : String) :
    containsSub (a ++ mid ++ b) mid = true := by
  unfold containsSub
  rw [show (a ++ mid ++ b).data = a.data ++ (mid.data ++ b.data) from by
    simp [List.append_assoc]]
  exact containsL_append_left a.data mid.data _ (containsL_self_append _ _)

theorem get_insert : ∀ (fs : JsonFields) (k q : String) (v : Json),
    (fs.insert k v).get q = if q = k then some v else fs.get q
  | .nil, k, q, v => by
    by_cases h : q = k
    · subst h
      simp [JsonFields.insert, JsonFields.get]
    · have h2 : (k = q) = False := by
        simp only [eq_iff_iff, iff_false]
        exact fun hh => h hh.symm
      simp [JsonFields.insert, JsonFields.get, h, h2]
  | .cons a w tl, k, q, v => by
    by_cases hak : a = k
    · subst hak
      by_cases hq : q = a
      · subst hq
        simp [JsonFields.insert, JsonFields.get]
      · have h2 : (a = q) = False := by
          simp only [eq_iff_iff, iff_false]
          exact fun hh => hq hh.symm
        simp [JsonFields.insert, JsonFields.get, hq, h2]
    · by_cases hq : q = a
      · subst hq
        simp [JsonFields.insert, JsonFields.get, hak]
      · have h2 : (a = q) = False := by
          simp only [eq_iff_iff, iff_false]
          exact fun hh => hq hh.symm
        simp [JsonFields.insert, JsonFields.get, hak, h2,
          get_insert tl k q v]

theorem get_none_of_not_hasKey : ∀ (fs : JsonFields) (k : String),
    fs.hasKey k = false → fs.get k = none
  | .nil, _, _ => rfl
  | .cons a w tl, k, h => by
    simp only [JsonFields.hasKey, Bool.or_eq_false_iff, decide_eq_false_iff_not] at h
    simp [JsonFields.get, h.1, get_none_of_not_hasKey tl k h.2]

theorem get_WFf : ∀ (fs : JsonFields) (k : String) (v : Json),
    WFf fs = true → fs.get k = some v → WFj v = true
  | .cons a w tl, k, v, hw, hg => by
    simp only [WFf, Bool.and_eq_true] at hw
    by_cases h : a = k
    · rw [JsonFields.get, if_pos h] at hg
      exact (Option.some.inj hg) ▸ hw.1
    · rw [JsonFields.get, if_neg h] at hg
      exact get_WFf tl k v hw.2 hg

theorem parseJson_WF (s : String) (v : Json) (h : parseJson s = some v) :
    WFj v = true := by
  unfold parseJson at h
  split at h
  · exact Option.noConfusion h
  · rename_i w rest hp
    split at h
    · obtain rfl := Option.some.inj h
      exact (parse_WF _).1 _ _ _ hp
    · exact Option.noConfusion h

theorem load_cache_WF (file : Option String) : WFj (load_cache file) = true := by
  cases file with
  | none => rfl
  | some s =>
    show WFj (match parseJson s with
      | some v => v
      | none => Json.obj JsonFields.nil) = true
    cases hp : parseJson s with
    | none => simp [hp, WFj, WFf, JsonFields.nodupKeys]
    | some v => simp [hp, parseJson_WF s v hp]

theorem tryParse_WF (text : String) (v : Json) (h : _try_parse_json text = some v) :
    WFj v = true := by
  unfold _try_parse_json at h
  split at h
  · rename_i hp
    exact parseJson_WF _ _ (hp.trans h)
  · split at h
    · exact Option.noConfusion h
    · rename_i block hb
      split at h
      · rename_i hp
        exact parseJson_WF _ _ (hp.trans h)
      · exact parseJson_WF _ _ h

theorem collectBadKeys_hasKey : ∀ (fs : JsonFields) (ks : List String),
    collectBadKeys fs = some ks → ∀ x ∈ ks, fs.hasKey x = true
  | .nil, ks, h, x, hx => by
    simp only [collectBadKeys, Option.some.injEq] at h
    subst h
    simp at hx
  | .cons k v tl, ks, h, x, hx => by
    simp only [collectBadKeys] at h
    split at h
    · exact Option.noConfusion h
    · rename_i b hb
      split at h
      · exact Option.noConfusion h
      · rename_i ks0 hks0
        obtain rfl := Option.some.inj h
        simp only [JsonFields.hasKey, Bool.or_eq_true, decide_eq_true_eq]
        cases b with
        | true =>
          rcases List.mem_cons.mp hx with rfl | hx
          · exact Or.inl rfl
          · exact Or.inr (collectBadKeys_hasKey tl ks0 hks0 x hx)
        | false => exact Or.inr (collectBadKeys_hasKey tl ks0 hks0 x hx)

theorem foldl_pop_cons : ∀ (ks : List String) (k : String) (v : Json)
    (tl : JsonFields), (∀ x ∈ ks, x ≠ k) →
    List.foldl (fun c j => JsonFields.pop c j) (.cons k v tl) ks =
      .cons k v (List.foldl (fun c j => JsonFields.pop c j) tl ks)
  | [], k, v, tl, _ => rfl
  | j :: ks, k, v, tl, h => by
    have hj : j ≠ k := h j (by simp)
    have hkj : (k = j) = False := by
      simp only [eq_iff_iff, iff_false]
      exact fun hh => hj hh.symm
    simp only [List.foldl_cons, JsonFields.pop, hkj, if_false]
    exact foldl_pop_cons ks k v (tl.pop j) (fun x hx => h x (by simp [hx]))

theorem purge_eq_purgeFilter : ∀ (fs : JsonFields),
    fs.nodupKeys = true → collectBadKeys fs ≠ none →
    purge_bad_entries fs = some (purgeFilter fs)
  | .nil, _, _ => rfl
  | .cons k v tl, hnd, hsc => by
    simp only [JsonFields.nodupKeys, Bool.and_eq_true, Bool.not_eq_true'] at hnd
    have hsc2 : ∃ b ks0, entryIsBad v = some b ∧ collectBadKeys tl = some ks0 := by
      by_contra hc
      apply hsc
      simp only [collectBadKeys]
      cases hb : entryIsBad v with
      | none => rfl
      | some b =>
        cases hks : collectBadKeys tl with
        | none => rfl
        | some ks0 => exact absurd ⟨b, ks0, hb, hks⟩ hc
    obtain ⟨b, ks0, hb, hks0⟩ := hsc2
    have ih := purge_eq_purgeFilter tl hnd.2 (by rw [hks0]; exact fun hh => Option.noConfusion hh)
    have ihfold : List.foldl (fun c j => JsonFields.pop c j) tl ks0 = purgeFilter tl := by
      unfold purge_bad_entries at ih
      rw [hks0] at ih
      exact Option.some.inj ih
    cases b with
    | true =>
      have hc : collectBadKeys (.cons k v tl) = some (k :: ks0) := by
        simp [collectBadKeys, hb, hks0]
      unfold purge_bad_entries
      rw [hc]
      show some (List.foldl (fun c j => JsonFields.pop c j)
        (JsonFields.cons k v tl) (k :: ks0)) =
        some (purgeFilter (JsonFields.cons k v tl))
      have hstep : List.foldl (fun c j => JsonFields.pop c j)
          (JsonFields.cons k v tl) (k :: ks0) =
          List.foldl (fun c j => JsonFields.pop c j) tl ks0 := by
        simp [JsonFields.pop]
      rw [hstep, ihfold,
        show purgeFilter (JsonFields.cons k v tl) = purgeFilter tl from by
          simp [purgeFilter, hb]]
    | false =>
      have hne : ∀ x ∈ ks0, x ≠ k := by
        intro x hx hxk
        subst hxk
        rw [collectBadKeys_hasKey tl ks0 hks0 x hx] at hnd
        exact Bool.noConfusion hnd.1
      have hc : collectBadKeys (.cons k v tl) = some ks0 := by
        simp [collectBadKeys, hb, hks0]
      unfold purge_bad_entries
      rw [hc]
      show some (List.foldl (fun c j => JsonFields.pop c j)
        (JsonFields.cons k v tl) ks0) =
        some (purgeFilter (JsonFields.cons k v tl))
      rw [foldl_pop_cons ks0 k v tl hne, ihfold,
        show purgeFilter (JsonFields.cons k v tl) =
          JsonFields.cons k v (purgeFilter tl) from by
          simp [purgeFilter, hb]]

theorem purgeFilter_hasKey : ∀ (fs : JsonFields) (k : String),
    fs.hasKey k = false → (purgeFilter fs).hasKey k = false
  | .nil, _, _ => rfl
  | .cons a v tl, k, h => by
    simp only [JsonFields.hasKey, Bool.or_eq_false_iff] at h
    unfold purgeFilter
    split
    · exact purgeFilter_hasKey tl k h.2
    · simp [JsonFields.hasKey, h.1, purgeFilter_hasKey tl k h.2]

theorem purgeFilter_nodup : ∀ (fs : JsonFields),
    fs.nodupKeys = true → (purgeFilter fs).nodupKeys = true
  | .nil, _ => rfl
  | .cons a v tl, h => by
    simp only [JsonFields.nodupKeys, Bool.and_eq_true, Bool.not_eq_true'] at h
    unfold purgeFilter
    split
    · exact purgeFilter_nodup tl h.2
    · simp [JsonFields.nodupKeys, purgeFilter_hasKey tl a h.1,
        purgeFilter_nodup tl h.2]

theorem purgeFilter_WFf : ∀ (fs : JsonFields),
    WFf fs = true → WFf (purgeFilter fs) = true
  | .nil, _ => rfl
  | .cons a v tl, h => by
    simp only [WFf, Bool.and_eq_true] at h
    unfold purgeFilter
    split
    · exact purgeFilter_WFf tl h.2
    · simp [WFf, h.1, purgeFilter_WFf tl h.2]

theorem purgeFilter_nonbad : ∀ (fs : JsonFields) (k : String) (v : Json),
    collectBadKeys fs ≠ none → (purgeFilter fs).get k = some v →
    entryIsBad v = some false
  | .nil, k, v, _, hg => Option.noConfusion hg
  | .cons a w tl, k, v, hsc, hg => by
    have hb : ∃ b, entryIsBad w = some b := by
      cases hb : entryIsBad w with
      | none => exact absurd (by simp [collectBadKeys, hb]) hsc
      | some b => exact ⟨b, rfl⟩
    obtain ⟨b, hb⟩ := hb
    have hsc2 : collectBadKeys tl ≠ none := by
      intro hc
      exact hsc (by simp [collectBadKeys, hb, hc])
    unfold purgeFilter at hg
    split at hg
    · exact purgeFilter_nonbad tl k v hsc2 hg
    · rename_i hnb
      rw [JsonFields.get] at hg
      split at hg
      · obtain rfl := Option.some.inj hg
        cases b with
        | true => exact absurd hb hnb
        | false => exact hb
      · exact purgeFilter_nonbad tl k v hsc2 hg

theorem get_purgeFilter_some : ∀ (fs : JsonFields) (k : String) (v : Json),
    fs.get k = some v → entryIsBad v = some false →
    (purgeFilter fs).get k = some v
  | .cons a w tl, k, v, hg, hnb => by
    rw [JsonFields.get] at hg
    split at hg
    · obtain rfl := Option.some.inj hg
      rename_i hak
      unfold purgeFilter
      rw [if_neg (by simp [hnb]), JsonFields.get, if_pos hak]
    · rename_i hak
      unfold purgeFilter
      split
      · exact get_purgeFilter_some tl k v hg hnb
      · rw [JsonFields.get, if_neg hak]
        exact get_purgeFilter_some tl k v hg hnb

theorem collectBadKeys_of_nonbad : ∀ (fs : JsonFields),
    fs.nodupKeys = true →
    (∀ k v, fs.get k = some v → entryIsBad v = some false) →
    collectBadKeys fs = some []
  | .nil, _, _ => rfl
  | .cons a w tl, hnd, hall => by
    simp only [JsonFields.nodupKeys, Bool.and_eq_true, Bool.not_eq_true'] at hnd
    have hw : entryIsBad w = some false :=
      hall a w (by rw [JsonFields.get, if_pos rfl])
    have htl : collectBadKeys tl = some [] := by
      refine collectBadKeys_of_nonbad tl hnd.2 ?_
      intro k v hg
      by_cases hka : a = k
      · subst hka
        rw [get_none_of_not_hasKey tl a hnd.1] at hg
        exact Option.noConfusion hg
      · exact hall k v (by rw [JsonFields.get, if_neg hka]; exact hg)
    simp [collectBadKeys, hw, htl]

theorem purge_of_no_bad (fs : JsonFields) (h : collectBadKeys fs = some []) :
    purge_bad_entries fs = some fs := by
  unfold purge_bad_entries
  rw [h]
  rfl

theorem insert_ne_nil : ∀ (fs : JsonFields) (k : String) (v : Json),
    fs.insert k v ≠ .nil
  | .nil, k, v => by simp [JsonFields.insert]
  | .cons a w tl, k, v => by
    unfold JsonFields.insert
    split <;> simp

theorem hasKey_ne_nil (fs : JsonFields) (k : String)
    (h : fs.hasKey k = true) : fs ≠ .nil := by
  intro hn
  subst hn
  exact Bool.noConfusion h

theorem obj_truthy_of_ne_nil (fs : JsonFields) (h : fs ≠ .nil) :
    pyTruthy (.obj fs) = true := by
  cases fs with
  | nil => exact absurd rfl h
  | cons a v tl => rfl

theorem sanitizeData_WF (ch cm : String) (d : JsonFields)
    (h1 : WFf d = true) (h2 : d.nodupKeys = true) :
    WFf (sanitizeData ch cm d) = true ∧
    (sanitizeData ch cm d).nodupKeys = true := by
  have step : ∀ (x : JsonFields), WFf x = true ∧ x.nodupKeys = true →
      ∀ (b : Bool) (k w : String),
      WFf (if b then x.insert k (.str w) else x) = true ∧
      (if b then x.insert k (.str w) else x).nodupKeys = true := by
    intro x hx b k w
    cases b with
    | false => exact hx
    | true => exact ⟨insert_WFf x k (.str w) hx.1 rfl, insert_nodup x k (.str w) hx.2⟩
  unfold sanitizeData
  exact step _ (step _ (step _ (step _ ⟨h1, h2⟩ _ _ _) _ _ _) _ _ _) _ _ _

theorem cond_insert_truthy (x : JsonFields) (k : String) (t : Bool) (w : String) :
    pyTruthy (.obj (if (!(x.hasKey k && t)) = true
      then x.insert k (.str w) else x)) = true := by
  split
  · exact obj_truthy_of_ne_nil _ (insert_ne_nil _ _ _)
  · rename_i hc
    simp only [Bool.not_eq_true, Bool.not_eq_false', Bool.and_eq_true] at hc
    exact obj_truthy_of_ne_nil _ (hasKey_ne_nil _ k hc.1)

theorem sanitizeData_truthy (ch cm : String) (d : JsonFields) :
    pyTruthy (.obj (sanitizeData ch cm d)) = true := by
  unfold sanitizeData
  exact cond_insert_truthy _ "team_snippet" _ _

theorem heuristicFallbackData_WF (ch cm : String) :
    WFf (heuristicFallbackData ch cm) = true ∧
    (heuristicFallbackData ch cm).nodupKeys = true := ⟨rfl, rfl⟩

theorem exceptionFallbackData_WF (ch cm e : String) :
    WFj (.obj (exceptionFallbackData ch cm e)) = true := rfl

theorem finishAttempt_shape (ch cm : String) (dataOpt : Option Json)
    (cache : JsonFields) (n : Nat)
    (hwf : ∀ v, dataOpt = some v → WFj v = true) :
    ∃ d : JsonFields,
      finishAttempt ch cm dataOpt cache n =
        ⟨.obj d, some (save_cache (cache.insert ch (.obj d))), n⟩ ∧
      pyTruthy (.obj d) = true ∧ WFj (.obj d) = true := by
  have heur : WFf (sanitizeData ch cm (heuristicFallbackData ch cm)) = true ∧
      (sanitizeData ch cm (heuristicFallbackData ch cm)).nodupKeys = true :=
    sanitizeData_WF ch cm _ (heuristicFallbackData_WF ch cm).1
      (heuristicFallbackData_WF ch cm).2
  unfold finishAttempt
  cases dataOpt with
  | none =>
    refine ⟨sanitizeData ch cm (heuristicFallbackData ch cm), rfl,
      sanitizeData_truthy ch cm _, ?_⟩
    simp [WFj, heur.1, heur.2]
  | some v =>
    dsimp only
    split
    · rename_i htr
      match v with
      | .obj f =>
        have hf : f.nodupKeys = true ∧ WFf f = true := by
          have := hwf (.obj f) rfl
          simpa [WFj, Bool.and_eq_true] using this
        have hs := sanitizeData_WF ch cm f hf.2 hf.1
        refine ⟨sanitizeData ch cm f, rfl, sanitizeData_truthy ch cm f, ?_⟩
        simp [WFj, hs.1, hs.2]
      | .null => exact ⟨exceptionFallbackData ch cm (nonDictErrorText .null), rfl, rfl, rfl⟩
      | .bool b => exact ⟨exceptionFallbackData ch cm (nonDictErrorText (.bool b)), rfl, rfl, rfl⟩
      | .num raw => exact ⟨exceptionFallbackData ch cm (nonDictErrorText (.num raw)), rfl, rfl, rfl⟩
      | .str s => exact ⟨exceptionFallbackData ch cm (nonDictErrorText (.str s)), rfl, rfl, rfl⟩
      | .arr xs => exact ⟨exceptionFallbackData ch cm (nonDictErrorText (.arr xs)), rfl, rfl, rfl⟩
    · refine ⟨sanitizeData ch cm (heuristicFallbackData ch cm), rfl,
        sanitizeData_truthy ch cm _, ?_⟩
      simp [WFj, heur.1, heur.2]

theorem attemptPhase_shape (oracle : Nat → LLMOutcome) (ch cm : String)
    (cache : JsonFields) :
    ∃ (d : JsonFields) (n : Nat),
      attemptPhase oracle ch cm cache =
        ⟨.obj d, some (save_cache (cache.insert ch (.obj d))), n⟩ ∧
      pyTruthy (.obj d) = true ∧ WFj (.obj d) = true := by
  unfold attemptPhase
  cases h0 : oracle 0 with
  | exc e =>
    exact ⟨exceptionFallbackData ch cm e, 1, rfl, rfl,
      exceptionFallbackData_WF ch cm e⟩
  | ok content =>
    dsimp only
    split
    · obtain ⟨d, h1, h2, h3⟩ := finishAttempt_shape ch cm
        (_try_parse_json content) cache 1 (fun v hv => tryParse_WF _ _ hv)
      exact ⟨d, 1, h1, h2, h3⟩
    · cases h1 : oracle 1 with
      | exc e =>
        exact ⟨exceptionFallbackData ch cm e, 2, rfl, rfl,
          exceptionFallbackData_WF ch cm e⟩
      | ok c2 =>
        obtain ⟨d, ha, hb, hc⟩ := finishAttempt_shape ch cm
          (_try_parse_json c2) cache 2 (fun v hv => tryParse_WF _ _ hv)
        exact ⟨d, 2, ha, hb, hc⟩

theorem classify_shape (oracle : Nat → LLMOutcome) (blk rn sd : String)
    (td : Option String) (mode : String) (file : Option String)
    (r : ClassifyResult)
    (h : classify_and_summarize_commit oracle blk rn sd td mode file = some r) :
    ∃ cache2 : JsonFields,
      r.file = some (save_cache cache2) ∧
      cache2.nodupKeys = true ∧ WFf cache2 = true ∧
      cache2.get ((_extract_commit_hash blk).getD "unknown") = some r.data ∧
      pyTruthy r.data = true ∧
      (∀ k w, cache2.get k = some w → entryIsBad w = some false ∨ w = r.data) := by
  unfold classify_and_summarize_commit at h
  dsimp only at h
  split at h
  case h_2 => exact Option.noConfusion h
  rename_i cache0 heq0
  have hwf0 : WFj (.obj cache0) = true := heq0 ▸ load_cache_WF file
  simp only [WFj, Bool.and_eq_true] at hwf0
  split at h
  · exact Option.noConfusion h
  rename_i cache heqp
  have hcol : collectBadKeys cache0 ≠ none := by
    intro hc
    unfold purge_bad_entries at heqp
    rw [hc] at heqp
    exact Option.noConfusion heqp
  have hpf : cache = purgeFilter cache0 := by
    have hp2 := purge_eq_purgeFilter cache0 hwf0.1 hcol
    rw [heqp] at hp2
    exact Option.some.inj hp2
  subst hpf
  have hnd : (purgeFilter cache0).nodupKeys = true := purgeFilter_nodup cache0 hwf0.1
  have hwff : WFf (purgeFilter cache0) = true := purgeFilter_WFf cache0 hwf0.2
  have hnonbad : ∀ k w, (purgeFilter cache0).get k = some w →
      entryIsBad w = some false := fun k w hw => purgeFilter_nonbad cache0 k w hcol hw
  have hATT : ∀ r, attemptPhase oracle ((_extract_commit_hash blk).getD "unknown")
      (_extract_commit_message blk) (purgeFilter cache0) = r →
      ∃ cache2 : JsonFields,
        r.file = some (save_cache cache2) ∧
        cache2.nodupKeys = true ∧ WFf cache2 = true ∧
        cache2.get ((_extract_commit_hash blk).getD "unknown") = some r.data ∧
        pyTruthy r.data = true ∧
        (∀ k w, cache2.get k = some w → entryIsBad w = some false ∨ w = r.data) := by
    intro r hr
    obtain ⟨d, n, ha, htr, hwfd⟩ := attemptPhase_shape oracle
      ((_extract_commit_hash blk).getD "unknown") (_extract_commit_message blk)
      (purgeFilter cache0)
    rw [ha] at hr
    subst hr
    refine ⟨(purgeFilter cache0).insert ((_extract_commit_hash blk).getD "unknown")
      (.obj d), rfl, insert_nodup _ _ _ hnd, insert_WFf _ _ _ hwff hwfd, ?_, htr, ?_⟩
    · rw [get_insert, if_pos rfl]
    · intro k w hw
      rw [get_insert] at hw
      split at hw
      · exact Or.inr (Option.some.inj hw).symm
      · exact Or.inl (hnonbad k w hw)
  split at h
  · rename_i v heqg
    split at h
    · rename_i htr
      obtain rfl := Option.some.inj h
      exact ⟨purgeFilter cache0, rfl, hnd, hwff, heqg, htr,
        fun k w hw => Or.inl (hnonbad k w hw)⟩
    · exact hATT r (Option.some.inj h)
  · exact hATT r (Option.some.inj h)

theorem classify_second (o1 o2 : Nat → LLMOutcome)
    (blk1 blk2 rn1 sd1 rn2 sd2 : String) (td1 td2 : Option String)
    (mode1 mode2 : String) (file : Option String) (r1 : ClassifyResult)
    (hh : (_extract_commit_hash blk2).getD "unknown" =
          (_extract_commit_hash blk1).getD "unknown")
    (h1 : classify_and_summarize_commit o1 blk1 rn1 sd1 td1 mode1 file = some r1)
    (hgood : entryIsBad r1.data = some false) :
    classify_and_summarize_commit o2 blk2 rn2 sd2 td2 mode2 r1.file =
      some ⟨r1.data, r1.file, 0⟩ := by
  obtain ⟨c2, hfile, hnd, hwff, hget, htr, hall⟩ :=
    classify_shape o1 blk1 rn1 sd1 td1 mode1 file r1 h1
  have hnb : ∀ k w, c2.get k = some w → entryIsBad w = some false := by
    intro k w hw
    rcases hall k w hw with h | h
    · exact h
    · rw [h]
      exact hgood
  have hcol : collectBadKeys c2 = some [] := collectBadKeys_of_nonbad c2 hnd hnb
  have hload : load_cache (some (save_cache c2)) = .obj c2 := by
    show (match parseJson (save_cache c2) with
      | some v => v
      | none => Json.obj JsonFields.nil) = .obj c2
    rw [show parseJson (save_cache c2) = some (.obj c2) from
      parse_dumps (.obj c2) (by simp [WFj, hnd, hwff])]
  unfold classify_and_summarize_commit
  dsimp only
  rw [hfile, hload]
  dsimp only
  rw [purge_of_no_bad c2 hcol]
  dsimp only
  rw [hh]
  rw [show get_cached ((_extract_commit_hash blk1).getD "unknown") c2 =
    some r1.data from hget]
  dsimp only
  simp [htr]

theorem entryIsBad_of_stringBullet (v : Json)
    (h : (match v with
     | .obj g =>
       (match g.get "bullet" with
        | some (.str _) => true
        | none => true
        | some _ => false)
     | _ => true) = true) :
    entryIsBad v = some (specBulletHasMarker v) := by
  match v with
  | .null => rfl
  | .bool b => rfl
  | .num raw => rfl
  | .str s => rfl
  | .arr xs => rfl
  | .obj g =>
    dsimp only at h
    simp only [entryIsBad, specBulletHasMarker]
    match hg : g.get "bullet" with
    | none => rfl
    | some (.str b) => rfl
    | some .null => rw [hg] at h; exact Bool.noConfusion h
    | some (.bool b) => rw [hg] at h; exact Bool.noConfusion h
    | some (.num raw) => rw [hg] at h; exact Bool.noConfusion h
    | some (.arr xs) => rw [hg] at h; exact Bool.noConfusion h
    | some (.obj g2) => rw [hg] at h; exact Bool.noConfusion h

theorem purgeFilter_eq_specPurge : ∀ (fs : JsonFields),
    stringBullets fs = true → purgeFilter fs = specPurge fs
  | .nil, _ => rfl
  | .cons k v tl, h => by
    simp only [stringBullets, Bool.and_eq_true] at h
    have hv := entryIsBad_of_stringBullet v h.1
    unfold purgeFilter specPurge
    rw [hv]
    cases hb : specBulletHasMarker v with
    | true => simp [purgeFilter_eq_specPurge tl h.2]
    | false => simp [purgeFilter_eq_specPurge tl h.2]

theorem collectBadKeys_of_stringBullets : ∀ (fs : JsonFields),
    stringBullets fs = true → collectBadKeys fs ≠ none
  | .nil, _ => by simp [collectBadKeys]
  | .cons k v tl, h => by
    simp only [stringBullets, Bool.and_eq_true] at h
    have hv := entryIsBad_of_stringBullet v h.1
    have htl := collectBadKeys_of_stringBullets tl h.2
    simp only [collectBadKeys, hv]
    cases hc : collectBadKeys tl with
    | none => exact absurd hc htl
    | some ks => simp

theorem classify_uncached (oracle : Nat → LLMOutcome) (blk rn sd : String)
    (td : Option String) (mode : String) (file : Option String)
    (r : ClassifyResult)
    (h : classify_and_summarize_commit oracle blk rn sd td mode file = some r)
    (hc : r.calls ≠ 0) :
    ∃ cache : JsonFields,
      r = attemptPhase oracle ((_extract_commit_hash blk).getD "unknown")
        (_extract_commit_message blk) cache := by
  unfold classify_and_summarize_commit at h
  dsimp only at h
  split at h
  case h_2 => exact Option.noConfusion h
  rename_i cache0 heq0
  split at h
  · exact Option.noConfusion h
  rename_i cache heqp
  split at h
  · rename_i v heqg
    split at h
    · obtain rfl := Option.some.inj h
      exact absurd rfl hc
    · exact ⟨cache, (Option.some.inj h).symm⟩
  · exact ⟨cache, (Option.some.inj h).symm⟩

theorem attemptPhase_exc_first (oracle : Nat → LLMOutcome) (ch cm e : String)
    (cache : JsonFields) (he : oracle 0 = .exc e) :
    attemptPhase oracle ch cm cache = finishException ch cm e cache 1 := by
  unfold attemptPhase
  rw [he]

theorem attemptPhase_exc_second (oracle : Nat → LLMOutcome) (ch cm e c : String)
    (cache : JsonFields) (he0 : oracle 0 = .ok c)
    (hfal : truthyOpt (_try_parse_json c) = false) (he1 : oracle 1 = .exc e) :
    attemptPhase oracle ch cm cache = finishException ch cm e cache 2 := by
  unfold attemptPhase
  rw [he0]
  dsimp only
  rw [if_neg (by simp [hfal]), he1]

theorem excFallback_bullet (ch cm e : String) :
    (exceptionFallbackData ch cm e).get "bullet" =
      some (.str ("- `[" ++ _heuristic_work_type cm ++ "] " ++ ch ++
        "`: (summary unavailable) " ++ e)) ∧
    containsSub ("- `[" ++ _heuristic_work_type cm ++ "] " ++ ch ++
        "`: (summary unavailable) " ++ e) "summary unavailable" = true := by
  constructor
  · rfl
  · unfold containsSub
    simp only [String.data_append]
    rw [show (['`', ':', ' ', '(', 's', 'u', 'm', 'm', 'a', 'r', 'y', ' ',
        'u', 'n', 'a', 'v', 'a', 'i', 'l', 'a', 'b', 'l', 'e', ')', ' '] :
        List Char) =
      ['`', ':', ' ', '('] ++
        (['s', 'u', 'm', 'm', 'a', 'r', 'y', ' ',
          'u', 'n', 'a', 'v', 'a', 'i', 'l', 'a', 'b', 'l', 'e'] ++
         [')', ' ']) from rfl]
    simp only [List.append_assoc]
    apply containsL_append_left
    apply containsL_append_left
    apply containsL_append_left
    apply containsL_append_left
    apply containsL_append_left
    exact containsL_self_append _ _

theorem finishException_facts (ch cm e : String) (cache : JsonFields) (n : Nat)
    (r : ClassifyResult) (hr : r = finishException ch cm e cache n) :
    r.data = .obj (exceptionFallbackData ch cm e) ∧
    (∃ b, (match r.data with | .obj fs => fs.get "bullet" | _ => none) =
        some (.str b) ∧ containsSub b "summary unavailable" = true) ∧
    (∃ cache2, r.file = some (save_cache cache2) ∧
        cache2.get ch = some r.data) ∧
    specBulletHasMarker r.data = true := by
  subst hr
  obtain ⟨hb, hm⟩ := excFallback_bullet ch cm e
  refine ⟨rfl, ⟨_, ?_, hm⟩, ⟨cache.insert ch (.obj (exceptionFallbackData ch cm e)),
    rfl, ?_⟩, ?_⟩
  · exact hb
  · rw [get_insert, if_pos rfl]
    rfl
  · show specBulletHasMarker (.obj (exceptionFallbackData ch cm e)) = true
    unfold specBulletHasMarker
    dsimp only
    rw [hb]
    exact hm

/-- C6: persisting a cache mapping with `save_cache` and reloading it
with `load_cache` yields an equal mapping; a backing file whose text
is not valid JSON, or a missing file, loads as the empty mapping and
never raises. -/
theorem C6_save_load_roundtrip :
    (∀ m : JsonFields, WFj (.obj m) = true →
      load_cache (some (save_cache m)) = .obj m) ∧
    (∀ s : String, parseJson s = none → load_cache (some s) = .obj .nil) ∧
    load_cache none = .obj .nil := by
  refine ⟨?_, ?_, rfl⟩
  · intro m hm
    show (match parseJson (save_cache m) with
      | some v => v
      | none => Json.obj JsonFields.nil) = .obj m
    rw [show parseJson (save_cache m) = some (.obj m) from
      parse_dumps (.obj m) hm]
  · intro s hs
    show (match parseJson s with
      | some v => v
      | none => Json.obj JsonFields.nil) = .obj .nil
    rw [hs]

/-- Witness for C6 at a one-entry mapping and a non-JSON file text. -/
theorem C6_save_load_roundtrip_witness :
    WFj (.obj (.cons "k" (.str "v") .nil)) = true ∧
    load_cache (some (save_cache (.cons "k" (.str "v") .nil))) =
      .obj (.cons "k" (.str "v") .nil) ∧
    parseJson "not json" = none ∧
    load_cache (some "not json") = .obj .nil ∧
    load_cache none = .obj .nil :=
  ⟨by decide, C6_save_load_roundtrip.1 _ (by decide), by decide,
   C6_save_load_roundtrip.2.1 "not json" (by decide),
   C6_save_load_roundtrip.2.2⟩

/-- C3 counterexample: the model reply carries a truthy but wrong
`commit_hash` (`"deadbeef"`); the classifier keeps it, so the returned
hash field differs from the hash extracted from the block header
(`"abc123"`). -/
theorem C3_counterexample :
    (classify_and_summarize_commit
        (fun _ => .ok "\x7b\"commit_hash\": \"deadbeef\", \"work_type\": \"bugfix\", \"bullet\": \"- [bugfix] `deadbeef`: x\", \"team_snippet\": \"y\"\x7d")
        "abc123 fix y" "r" "2024-01-01" none "today" none).map
      (fun r => match r.data with | .obj fs => fs.get "commit_hash" | _ => none) ≠
      some (some (.str "abc123")) := by decide

/-- C3 (amended): each of the four fields is backfilled with its
heuristic default exactly when it is missing or falsy, and kept as is
when present and truthy: `commit_hash` gets the extracted hash,
`work_type` the heuristic classification of the message, `bullet` the
templated line built from the (already sanitized) work type, the
extracted hash and the message, and `team_snippet` the trimmed
message.  In particular a truthy model-supplied hash is kept, and the
heuristic and exception fallbacks always carry the extracted hash. -/
theorem C3_hash_backfill_amended :
    ∀ (ch cm e : String) (d : JsonFields),
      ((d.hasKey "commit_hash" &&
          pyTruthy ((d.get "commit_hash").getD .null)) = false →
        (sanitizeData ch cm d).get "commit_hash" = some (.str ch)) ∧
      ((d.hasKey "commit_hash" &&
          pyTruthy ((d.get "commit_hash").getD .null)) = true →
        (sanitizeData ch cm d).get "commit_hash" = d.get "commit_hash") ∧
      ((d.hasKey "work_type" &&
          pyTruthy ((d.get "work_type").getD .null)) = false →
        (sanitizeData ch cm d).get "work_type" =
          some (.str (_heuristic_work_type cm))) ∧
      ((d.hasKey "work_type" &&
          pyTruthy ((d.get "work_type").getD .null)) = true →
        (sanitizeData ch cm d).get "work_type" = d.get "work_type") ∧
      ((d.hasKey "bullet" &&
          pyTruthy ((d.get "bullet").getD .null)) = false →
        (sanitizeData ch cm d).get "bullet" =
          some (.str ("- [" ++
            pyStr (((sanitizeData ch cm d).get "work_type").getD .null) ++
            "] `" ++ ch ++ "`: " ++ strOr cm "Updated files"))) ∧
      ((d.hasKey "bullet" &&
          pyTruthy ((d.get "bullet").getD .null)) = true →
        (sanitizeData ch cm d).get "bullet" = d.get "bullet") ∧
      ((d.hasKey "team_snippet" &&
          pyTruthy ((d.get "team_snippet").getD .null)) = false →
        (sanitizeData ch cm d).get "team_snippet" =
          some (.str (snippetOfMsg cm))) ∧
      ((d.hasKey "team_snippet" &&
          pyTruthy ((d.get "team_snippet").getD .null)) = true →
        (sanitizeData ch cm d).get "team_snippet" = d.get "team_snippet") ∧
      (heuristicFallbackData ch cm).get "commit_hash" = some (.str ch) ∧
      (exceptionFallbackData ch cm e).get "commit_hash" = some (.str ch) := by
  intro ch cm e d
  have getpres : ∀ (x : JsonFields) (b : Bool) (k q : String) (w : Json),
      (q = k) = False →
      (if b then x.insert k w else x).get q = x.get q := by
    intro x b k q w hk
    cases b with
    | false => rfl
    | true =>
      rw [if_pos rfl, get_insert, if_neg (fun hh => (hk ▸ hh : False))]
  have condpres : ∀ (x : JsonFields) (b : Bool) (k q : String) (w : Json),
      (q = k) = False →
      ((if b then x.insert k w else x).hasKey q &&
        pyTruthy (((if b then x.insert k w else x).get q).getD .null)) =
      (x.hasKey q && pyTruthy ((x.get q).getD .null)) := by
    intro x b k q w hk
    cases b with
    | false => rfl
    | true =>
      rw [if_pos rfl, get_insert, if_neg (fun hh => (hk ▸ hh : False)),
        insert_hasKey]
      have hd : (decide (k = q)) = false := by
        simp only [decide_eq_false_iff_not]
        intro hh
        exact (hk ▸ hh.symm : False)
      rw [hd, Bool.or_false]
  refine ⟨?_, ?_, ?_, ?_, ?_, ?_, ?_, ?_, rfl, rfl⟩
  · intro hfalse
    simp only [sanitizeData]
    rw [getpres _ _ "team_snippet" "commit_hash" _ (by simp),
      getpres _ _ "bullet" "commit_hash" _ (by simp),
      getpres _ _ "work_type" "commit_hash" _ (by simp)]
    rw [if_pos (by rw [hfalse]; rfl)]
    rw [get_insert, if_pos rfl]
  · intro htrue
    simp only [sanitizeData]
    rw [getpres _ _ "team_snippet" "commit_hash" _ (by simp),
      getpres _ _ "bullet" "commit_hash" _ (by simp),
      getpres _ _ "work_type" "commit_hash" _ (by simp)]
    rw [if_neg (by rw [htrue]; simp)]
  · intro hfalse
    simp only [sanitizeData]
    rw [getpres _ _ "team_snippet" "work_type" _ (by simp),
      getpres _ _ "bullet" "work_type" _ (by simp)]
    rw [condpres _ _ "commit_hash" "work_type" _ (by simp)]
    rw [if_pos (by rw [hfalse]; rfl)]
    rw [get_insert, if_pos rfl]
  · intro htrue
    simp only [sanitizeData]
    rw [getpres _ _ "team_snippet" "work_type" _ (by simp),
      getpres _ _ "bullet" "work_type" _ (by simp)]
    rw [condpres _ _ "commit_hash" "work_type" _ (by simp)]
    rw [if_neg (by rw [htrue]; simp)]
    rw [getpres _ _ "commit_hash" "work_type" _ (by simp)]
  · intro hfalse
    simp only [sanitizeData]
    rw [getpres _ _ "team_snippet" "bullet" _ (by simp)]
    rw [getpres _ _ "team_snippet" "work_type" _ (by simp),
      getpres _ _ "bullet" "work_type" _ (by simp)]
    rw [condpres _ _ "work_type" "bullet" _ (by simp),
      condpres _ _ "commit_hash" "bullet" _ (by simp)]
    rw [if_pos (by rw [hfalse]; rfl)]
    rw [get_insert, if_pos rfl]
  · intro htrue
    simp only [sanitizeData]
    rw [getpres _ _ "team_snippet" "bullet" _ (by simp)]
    rw [condpres _ _ "work_type" "bullet" _ (by simp),
      condpres _ _ "commit_hash" "bullet" _ (by simp)]
    rw [if_neg (by rw [htrue]; simp)]
    rw [getpres _ _ "work_type" "bullet" _ (by simp),
      getpres _ _ "commit_hash" "bullet" _ (by simp)]
  · intro hfalse
    simp only [sanitizeData]
    rw [condpres _ _ "bullet" "team_snippet" _ (by simp),
      condpres _ _ "work_type" "team_snippet" _ (by simp),
      condpres _ _ "commit_hash" "team_snippet" _ (by simp)]
    rw [if_pos (by rw [hfalse]; rfl)]
    rw [get_insert, if_pos rfl]
  · intro htrue
    simp only [sanitizeData]
    rw [condpres _ _ "bullet" "team_snippet" _ (by simp),
      condpres _ _ "work_type" "team_snippet" _ (by simp),
      condpres _ _ "commit_hash" "team_snippet" _ (by simp)]
    rw [if_neg (by rw [htrue]; simp)]
    rw [getpres _ _ "bullet" "team_snippet" _ (by simp),
      getpres _ _ "work_type" "team_snippet" _ (by simp),
      getpres _ _ "commit_hash" "team_snippet" _ (by simp)]

/-- Witness for C3 (amended): an empty dict gets all four fields
backfilled from the heuristic defaults; a dict carrying truthy values
for all four fields keeps every one of them. -/
theorem C3_hash_backfill_amended_witness :
    ((JsonFields.nil.hasKey "commit_hash" &&
        pyTruthy ((JsonFields.nil.get "commit_hash").getD .null)) = false) ∧
    (sanitizeData "abc123" "fix y" .nil).get "commit_hash" =
      some (.str "abc123") ∧
    ((JsonFields.nil.hasKey "work_type" &&
        pyTruthy ((JsonFields.nil.get "work_type").getD .null)) = false) ∧
    (sanitizeData "abc123" "fix y" .nil).get "work_type" =
      some (.str (_heuristic_work_type "fix y")) ∧
    ((JsonFields.nil.hasKey "bullet" &&
        pyTruthy ((JsonFields.nil.get "bullet").getD .null)) = false) ∧
    (sanitizeData "abc123" "fix y" .nil).get "bullet" =
      some (.str ("- [" ++
        pyStr (((sanitizeData "abc123" "fix y" .nil).get "work_type").getD .null) ++
        "] `" ++ "abc123" ++ "`: " ++ strOr "fix y" "Updated files")) ∧
    ((JsonFields.nil.hasKey "team_snippet" &&
        pyTruthy ((JsonFields.nil.get "team_snippet").getD .null)) = false) ∧
    (sanitizeData "abc123" "fix y" .nil).get "team_snippet" =
      some (.str (snippetOfMsg "fix y")) ∧
    (((JsonFields.cons "commit_hash" (.str "deadbeef")
        (.cons "work_type" (.str "docs")
          (.cons "bullet" (.str "b")
            (.cons "team_snippet" (.str "t") .nil)))).hasKey "commit_hash" &&
        pyTruthy (((JsonFields.cons "commit_hash" (.str "deadbeef")
          (.cons "work_type" (.str "docs")
            (.cons "bullet" (.str "b")
              (.cons "team_snippet" (.str "t")
                .nil)))).get "commit_hash").getD .null)) = true) ∧
    (sanitizeData "abc123" "fix y"
        (.cons "commit_hash" (.str "deadbeef")
          (.cons "work_type" (.str "docs")
            (.cons "bullet" (.str "b")
              (.cons "team_snippet" (.str "t") .nil))))).get "commit_hash" =
      (JsonFields.cons "commit_hash" (.str "deadbeef")
        (.cons "work_type" (.str "docs")
          (.cons "bullet" (.str "b")
            (.cons "team_snippet" (.str "t") .nil)))).get "commit_hash" ∧
    (sanitizeData "abc123" "fix y"
        (.cons "commit_hash" (.str "deadbeef")
          (.cons "work_type" (.str "docs")
            (.cons "bullet" (.str "b")
              (.cons "team_snippet" (.str "t") .nil))))).get "work_type" =
      (JsonFields.cons "commit_hash" (.str "deadbeef")
        (.cons "work_type" (.str "docs")
          (.cons "bullet" (.str "b")
            (.cons "team_snippet" (.str "t") .nil)))).get "work_type" ∧
    (sanitizeData "abc123" "fix y"
        (.cons "commit_hash" (.str "deadbeef")
          (.cons "work_type" (.str "docs")
            (.cons "bullet" (.str "b")
              (.cons "team_snippet" (.str "t") .nil))))).get "bullet" =
      (JsonFields.cons "commit_hash" (.str "deadbeef")
        (.cons "work_type" (.str "docs")
          (.cons "bullet" (.str "b")
            (.cons "team_snippet" (.str "t") .nil)))).get "bullet" ∧
    (sanitizeData "abc123" "fix y"
        (.cons "commit_hash" (.str "deadbeef")
          (.cons "work_type" (.str "docs")
            (.cons "bullet" (.str "b")
              (.cons "team_snippet" (.str "t") .nil))))).get "team_snippet" =
      (JsonFields.cons "commit_hash" (.str "deadbeef")
        (.cons "work_type" (.str "docs")
          (.cons "bullet" (.str "b")
            (.cons "team_snippet" (.str "t") .nil)))).get "team_snippet" :=
  ⟨by decide,
   (C3_hash_backfill_amended "abc123" "fix y" "e" .nil).1 (by decide),
   by decide,
   (C3_hash_backfill_amended "abc123" "fix y" "e" .nil).2.2.1 (by decide),
   by decide,
   (C3_hash_backfill_amended "abc123" "fix y" "e" .nil).2.2.2.2.1 (by decide),
   by decide,
   (C3_hash_backfill_amended "abc123" "fix y" "e"
     .nil).2.2.2.2.2.2.1 (by decide),
   by decide,
   (C3_hash_backfill_amended "abc123" "fix y" "e"
     (.cons "commit_hash" (.str "deadbeef")
       (.cons "work_type" (.str "docs")
         (.cons "bullet" (.str "b")
           (.cons "team_snippet" (.str "t") .nil))))).2.1 (by decide),
   (C3_hash_backfill_amended "abc123" "fix y" "e"
     (.cons "commit_hash" (.str "deadbeef")
       (.cons "work_type" (.str "docs")
         (.cons "bullet" (.str "b")
           (.cons "team_snippet" (.str "t") .nil))))).2.2.2.1 (by decide),
   (C3_hash_backfill_amended "abc123" "fix y" "e"
     (.cons "commit_hash" (.str "deadbeef")
       (.cons "work_type" (.str "docs")
         (.cons "bullet" (.str "b")
           (.cons "team_snippet" (.str "t") .nil))))).2.2.2.2.2.1 (by decide),
   (C3_hash_backfill_amended "abc123" "fix y" "e"
     (.cons "commit_hash" (.str "deadbeef")
       (.cons "work_type" (.str "docs")
         (.cons "bullet" (.str "b")
           (.cons "team_snippet"
             (.str "t") .nil))))).2.2.2.2.2.2.2.1 (by decide)⟩

set_option maxRecDepth 16384 in
/-- C1 counterexample: when the first call's model attempt raises, the
cached entry is the exception fallback; the purge pass before the
second call removes it, so the second call on the same commit block
attempts the model again (one chat call, not zero). -/
theorem C1_counterexample :
    ((classify_and_summarize_commit (fun _ => .exc "connection refused")
        "abc123 fix parser" "repo" "2024-01-01" none "today" none).bind
      (fun r1 => classify_and_summarize_commit (fun _ => .exc "connection refused")
        "abc123 fix parser" "repo" "2024-01-01" none "today" r1.file)).map
      (fun r2 => r2.calls) ≠ some 0 := by decide

/-- C1 (amended): if the first call succeeds and the entry it leaves
in the cache does not carry the failure marker (so the purge pass
keeps it), a second call on the same commit block returns that entry
unchanged, leaves the cache file unchanged, and makes no model
call. -/
theorem C1_cache_shortcircuit_amended (o1 o2 : Nat → LLMOutcome)
    (blk rn sd : String) (td : Option String) (mode : String)
    (file : Option String) (r1 : ClassifyResult)
    (h1 : classify_and_summarize_commit o1 blk rn sd td mode file = some r1)
    (hgood : entryIsBad r1.data = some false) :
    classify_and_summarize_commit o2 blk rn sd td mode r1.file =
      some ⟨r1.data, r1.file, 0⟩ :=
  classify_second o1 o2 blk blk rn sd rn sd td td mode mode file r1 rfl h1 hgood

/-- Witness for C1 (amended): a concrete cache file with one good
entry; the first call is a cache hit and the second call returns the
same result with zero chat calls. -/
theorem C1_cache_shortcircuit_amended_witness :
    classify_and_summarize_commit (fun _ => .exc "down") "abc123 tidy" "r"
        "2024-01-01" none "today"
        (some "\x7b\n  \"abc123\": \x7b\n    \"bullet\": \"- [bugfix] `abc123`: tidy\"\n  \x7d\n\x7d") =
      some ⟨.obj (.cons "bullet" (.str "- [bugfix] `abc123`: tidy") .nil),
        some "\x7b\n  \"abc123\": \x7b\n    \"bullet\": \"- [bugfix] `abc123`: tidy\"\n  \x7d\n\x7d", 0⟩ ∧
    entryIsBad (.obj (.cons "bullet" (.str "- [bugfix] `abc123`: tidy") .nil)) =
      some false ∧
    classify_and_summarize_commit (fun _ => .exc "down") "abc123 tidy" "r"
        "2024-01-01" none "today"
        (some "\x7b\n  \"abc123\": \x7b\n    \"bullet\": \"- [bugfix] `abc123`: tidy\"\n  \x7d\n\x7d") =
      some ⟨.obj (.cons "bullet" (.str "- [bugfix] `abc123`: tidy") .nil),
        some "\x7b\n  \"abc123\": \x7b\n    \"bullet\": \"- [bugfix] `abc123`: tidy\"\n  \x7d\n\x7d", 0⟩ :=
  ⟨by decide, by decide,
   C1_cache_shortcircuit_amended (fun _ => .exc "down") (fun _ => .exc "down")
     "abc123 tidy" "r" "2024-01-01" none "today"
     (some "\x7b\n  \"abc123\": \x7b\n    \"bullet\": \"- [bugfix] `abc123`: tidy\"\n  \x7d\n\x7d")
     ⟨.obj (.cons "bullet" (.str "- [bugfix] `abc123`: tidy") .nil),
      some "\x7b\n  \"abc123\": \x7b\n    \"bullet\": \"- [bugfix] `abc123`: tidy\"\n  \x7d\n\x7d", 0⟩
     (by decide) (by decide)⟩

set_option maxRecDepth 16384 in
/-- C10 counterexample: two different malformed blocks share the cache
key `"unknown"`, but when the first classification was the exception
fallback, the purge pass removes it before the second call, which
therefore re-attempts the model and returns a different entry (here
with a different work type) rather than the first call's cached
entry. -/
theorem C10_counterexample :
    ((classify_and_summarize_commit (fun _ => .exc "down") "Merge branch main"
        "r" "2024-01-01" none "today" none).bind
      (fun r1 =>
        (classify_and_summarize_commit (fun _ => .exc "down") "Update README"
          "r" "2024-01-01" none "today" r1.file).map
        (fun r2 => decide (r2.data = r1.data) || decide (r2.calls = 0)))) =
      some false := by decide

/-- C10 (amended): a block whose first line has no 6-40 character
lowercase-hex prefix is classified under the literal key `"unknown"`
(the call terminates normally and the persisted cache maps
`"unknown"` to the result); and once one malformed block's entry is
cached and survives the purge pass (no failure marker), every
subsequent call on any malformed block returns that same entry with
no model call. -/
theorem C10_unknown_key_amended :
    (∀ (oracle : Nat → LLMOutcome) (blk rn sd : String) (td : Option String)
       (mode : String) (file : Option String) (r : ClassifyResult),
       _extract_commit_hash blk = none →
       classify_and_summarize_commit oracle blk rn sd td mode file = some r →
       ∃ cache2, r.file = some (save_cache cache2) ∧
         cache2.get "unknown" = some r.data) ∧
    (∀ (o1 o2 : Nat → LLMOutcome) (blk1 blk2 rn1 sd1 rn2 sd2 : String)
       (td1 td2 : Option String) (mode1 mode2 : String) (file : Option String)
       (r1 : ClassifyResult),
       _extract_commit_hash blk1 = none → _extract_commit_hash blk2 = none →
       classify_and_summarize_commit o1 blk1 rn1 sd1 td1 mode1 file = some r1 →
       entryIsBad r1.data = some false →
       classify_and_summarize_commit o2 blk2 rn2 sd2 td2 mode2 r1.file =
         some ⟨r1.data, r1.file, 0⟩) := by
  constructor
  · intro oracle blk rn sd td mode file r hb h
    obtain ⟨c2, hfile, _, _, hget, _, _⟩ :=
      classify_shape oracle blk rn sd td mode file r h
    rw [hb] at hget
    exact ⟨c2, hfile, hget⟩
  · intro o1 o2 blk1 blk2 rn1 sd1 rn2 sd2 td1 td2 mode1 mode2 file r1 hb1 hb2 h1 hgood
    exact classify_second o1 o2 blk1 blk2 rn1 sd1 rn2 sd2 td1 td2 mode1 mode2
      file r1 (by rw [hb1, hb2]) h1 hgood

/-- Witness for C10 (amended): a concrete cache file whose `"unknown"`
entry is a good (marker-free) entry; two different malformed blocks
both hit it, and the second call changes nothing and calls no
model. -/
theorem C10_unknown_key_amended_witness :
    _extract_commit_hash "Merge branch dev" = none ∧
    _extract_commit_hash "WIP stuff" = none ∧
    classify_and_summarize_commit (fun _ => .exc "down") "Merge branch dev" "r"
        "2024-01-01" none "today"
        (some "\x7b\n  \"unknown\": \x7b\n    \"bullet\": \"- [other] `unknown`: merged\"\n  \x7d\n\x7d") =
      some ⟨.obj (.cons "bullet" (.str "- [other] `unknown`: merged") .nil),
        some "\x7b\n  \"unknown\": \x7b\n    \"bullet\": \"- [other] `unknown`: merged\"\n  \x7d\n\x7d", 0⟩ ∧
    (∃ cache2,
      (some "\x7b\n  \"unknown\": \x7b\n    \"bullet\": \"- [other] `unknown`: merged\"\n  \x7d\n\x7d" :
        Option String) = some (save_cache cache2) ∧
      cache2.get "unknown" =
        some (.obj (.cons "bullet" (.str "- [other] `unknown`: merged") .nil))) ∧
    classify_and_summarize_commit (fun _ => .ok "ignored") "WIP stuff" "r2"
        "2024-02-02" none "weekly"
        (some "\x7b\n  \"unknown\": \x7b\n    \"bullet\": \"- [other] `unknown`: merged\"\n  \x7d\n\x7d") =
      some ⟨.obj (.cons "bullet" (.str "- [other] `unknown`: merged") .nil),
        some "\x7b\n  \"unknown\": \x7b\n    \"bullet\": \"- [other] `unknown`: merged\"\n  \x7d\n\x7d", 0⟩ :=
  ⟨by decide, by decide, by decide,
   C10_unknown_key_amended.1 (fun _ => .exc "down") "Merge branch dev" "r"
     "2024-01-01" none "today"
     (some "\x7b\n  \"unknown\": \x7b\n    \"bullet\": \"- [other] `unknown`: merged\"\n  \x7d\n\x7d")
     ⟨.obj (.cons "bullet" (.str "- [other] `unknown`: merged") .nil),
      some "\x7b\n  \"unknown\": \x7b\n    \"bullet\": \"- [other] `unknown`: merged\"\n  \x7d\n\x7d", 0⟩
     (by decide) (by decide),
   C10_unknown_key_amended.2 (fun _ => .exc "down") (fun _ => .ok "ignored")
     "Merge branch dev" "WIP stuff" "r" "2024-01-01" "r2" "2024-02-02" none none
     "today" "weekly"
     (some "\x7b\n  \"unknown\": \x7b\n    \"bullet\": \"- [other] `unknown`: merged\"\n  \x7d\n\x7d")
     ⟨.obj (.cons "bullet" (.str "- [other] `unknown`: merged") .nil),
      some "\x7b\n  \"unknown\": \x7b\n    \"bullet\": \"- [other] `unknown`: merged\"\n  \x7d\n\x7d", 0⟩
     (by decide) (by decide) (by decide) (by decide)⟩

/-- C2: if either model call raises (first call, or second call after
an unparseable first response), the classifier catches the exception
and returns, without raising, the fallback object whose bullet embeds
the exception text after the `(summary unavailable)` marker; the
object is written into the cache under the commit hash and the cache
is persisted; and the purge pass removes exactly the entries whose
bullet text contains that failure marker. -/
theorem C2_exception_fallback_and_purge :
    (∀ (oracle : Nat → LLMOutcome) (blk rn sd : String) (td : Option String)
       (mode : String) (file : Option String) (r : ClassifyResult) (e : String),
       classify_and_summarize_commit oracle blk rn sd td mode file = some r →
       r.calls ≠ 0 →
       (oracle 0 = .exc e ∨
        (∃ c, oracle 0 = .ok c ∧ truthyOpt (_try_parse_json c) = false ∧
          oracle 1 = .exc e)) →
       r.data = .obj (exceptionFallbackData
         ((_extract_commit_hash blk).getD "unknown")
         (_extract_commit_message blk) e) ∧
       (∃ b, (match r.data with | .obj fs => fs.get "bullet" | _ => none) =
           some (.str b) ∧ containsSub b "summary unavailable" = true) ∧
       (∃ cache2, r.file = some (save_cache cache2) ∧
           cache2.get ((_extract_commit_hash blk).getD "unknown") = some r.data) ∧
       specBulletHasMarker r.data = true) ∧
    (∀ fs : JsonFields, fs.nodupKeys = true → stringBullets fs = true →
       purge_bad_entries fs = some (specPurge fs)) := by
  constructor
  · intro oracle blk rn sd td mode file r e h hc hexc
    obtain ⟨cache, hr⟩ := classify_uncached oracle blk rn sd td mode file r h hc
    rcases hexc with he | ⟨c, he0, hfal, he1⟩
    · exact finishException_facts _ _ e cache 1 r
        (hr.trans (attemptPhase_exc_first oracle _ _ e cache he))
    · exact finishException_facts _ _ e cache 2 r
        (hr.trans (attemptPhase_exc_second oracle _ _ e c cache he0 hfal he1))
  · intro fs hnd hsb
    rw [purge_eq_purgeFilter fs hnd (collectBadKeys_of_stringBullets fs hsb),
      purgeFilter_eq_specPurge fs hsb]

set_option maxRecDepth 16384 in
/-- Witness for C2: a concrete failing first call, and a concrete
two-entry cache from which the purge pass removes exactly the
marker-carrying entry. -/
theorem C2_exception_fallback_and_purge_witness :
    classify_and_summarize_commit (fun _ => .exc "boom") "abc999 fix z" "r"
        "2024-01-01" none "today" none =
      some ⟨.obj (exceptionFallbackData "abc999" "fix z" "boom"),
        some (save_cache (JsonFields.nil.insert "abc999"
          (.obj (exceptionFallbackData "abc999" "fix z" "boom")))), 1⟩ ∧
    ((⟨.obj (exceptionFallbackData "abc999" "fix z" "boom"),
        some (save_cache (JsonFields.nil.insert "abc999"
          (.obj (exceptionFallbackData "abc999" "fix z" "boom")))), 1⟩ :
        ClassifyResult).calls ≠ 0) ∧
    ((fun _ => LLMOutcome.exc "boom") 0 = LLMOutcome.exc "boom") ∧
    ((⟨.obj (exceptionFallbackData "abc999" "fix z" "boom"),
        some (save_cache (JsonFields.nil.insert "abc999"
          (.obj (exceptionFallbackData "abc999" "fix z" "boom")))), 1⟩ :
        ClassifyResult).data =
      .obj (exceptionFallbackData
        ((_extract_commit_hash "abc999 fix z").getD "unknown")
        (_extract_commit_message "abc999 fix z") "boom") ∧
     (∃ b, (match (.obj (exceptionFallbackData "abc999" "fix z" "boom") : Json) with
         | .obj fs => fs.get "bullet" | _ => none) =
         some (.str b) ∧ containsSub b "summary unavailable" = true) ∧
     (∃ cache2, (some (save_cache (JsonFields.nil.insert "abc999"
          (.obj (exceptionFallbackData "abc999" "fix z" "boom")))) :
          Option String) = some (save_cache cache2) ∧
        cache2.get ((_extract_commit_hash "abc999 fix z").getD "unknown") =
          some (.obj (exceptionFallbackData "abc999" "fix z" "boom"))) ∧
     specBulletHasMarker (.obj (exceptionFallbackData "abc999" "fix z" "boom")) =
       true) ∧
    ((JsonFields.cons "good" (.obj (.cons "bullet" (.str "ok") .nil))
        (.cons "bad" (.obj (.cons "bullet"
          (.str "x (summary unavailable) y") .nil)) .nil)).nodupKeys = true) ∧
    (stringBullets (JsonFields.cons "good" (.obj (.cons "bullet" (.str "ok") .nil))
        (.cons "bad" (.obj (.cons "bullet"
          (.str "x (summary unavailable) y") .nil)) .nil)) = true) ∧
    purge_bad_entries (JsonFields.cons "good" (.obj (.cons "bullet" (.str "ok") .nil))
        (.cons "bad" (.obj (.cons "bullet"
          (.str "x (summary unavailable) y") .nil)) .nil)) =
      some (specPurge (JsonFields.cons "good" (.obj (.cons "bullet" (.str "ok") .nil))
        (.cons "bad" (.obj (.cons "bullet"
          (.str "x (summary unavailable) y") .nil)) .nil))) :=
  ⟨by decide, by decide, rfl,
   C2_exception_fallback_and_purge.1 (fun _ => .exc "boom") "abc999 fix z" "r"
     "2024-01-01" none "today" none
     ⟨.obj (exceptionFallbackData "abc999" "fix z" "boom"),
      some (save_cache (JsonFields.nil.insert "abc999"
        (.obj (exceptionFallbackData "abc999" "fix z" "boom")))), 1⟩ "boom"
     (by decide) (by decide) (Or.inl rfl),
   by decide, by decide,
   C2_exception_fallback_and_purge.2
     (JsonFields.cons "good" (.obj (.cons "bullet" (.str "ok") .nil))
       (.cons "bad" (.obj (.cons "bullet"
         (.str "x (summary unavailable) y") .nil)) .nil))
     (by decide) (by decide)⟩
